import Mathlib

/-!
Shallow embedding of the Contexta digital-twin engine
(`backend/app/twin/engine.py`, class `DigitalTwinEngine`) and proofs about it.

Modelling conventions:
* Python dicts are association lists in insertion order; updating an existing
  key keeps its position (CPython semantics), adding a key appends it.
* The `networkx.DiGraph` is modelled by its node list (insertion order) and its
  edge list (insertion order, keyed by `(source, target)`; re-adding an edge
  overwrites its data in place, and `add_edge` inserts missing endpoint nodes).
* Python `float` is modelled by `ℚ`.  `round(x, 2)` is modelled by
  `round2` below; Python's banker's rounding differs from `round2` only at
  exact half-cent ties, which no value appearing in these claims hits.
* The ambient random source `random.random()` is modelled by an explicit
  stream `rng : ℕ → ℚ` together with the index of the next draw; each call of
  `random.random()` consumes exactly one stream element.
* The Python `set` of compromised assets is modelled as a duplicate-free list
  in insertion order.  Only membership tests and iteration are performed on
  it; all theorems proved below are insensitive to the iteration order.
* Dict indexing `d[k]` on a possibly-missing key (a `KeyError`) is modelled by
  `Option`-valued lookup, and operations that can raise propagate the failure
  as an explicit `keyError` outcome.
-/

namespace Contexta

/-- Association-list lookup, modelling Python `d.get(k)` / `k in d`. -/
def dlookup {β : Type} : List (String × β) → String → Option β
  | [], _ => none
  | (k', v) :: rest, k => if k' = k then some v else dlookup rest k

/-- Association-list update, modelling Python `d[k] = v`: an existing key is
updated in place (keeping its position), a new key is appended. -/
def dset {β : Type} : List (String × β) → String → β → List (String × β)
  | [], k, v => [(k, v)]
  | (k', v') :: rest, k, v =>
    if k' = k then (k, v) :: rest else (k', v') :: dset rest k v

/-- One vulnerability entry, as stored by `add_vulnerability`. -/
structure Vuln where
  cve_id : String
  cvss_score : ℚ
  exploitable : Bool
  network_exploitable : Bool
deriving DecidableEq

/-- The per-asset metadata record built by `add_asset`.  The Python record is a
dict with exactly these keys ("type" is rendered `typ`); the open `metadata`
map has opaque values, modelled as strings. -/
structure AssetMeta where
  id : String
  typ : String
  name : String
  criticality : String
  zone : String
  compromised : Bool
  compromise_time : Option Nat
  metadata : List (String × String)
deriving DecidableEq

/-- One directed edge of the `networkx.DiGraph`, with the attribute dict that
`add_connection` always attaches (`type`, `protocols`, `weight`). -/
structure Edge where
  source : String
  target : String
  typ : String
  protocols : List String
  weight : ℚ
deriving DecidableEq

/-- The engine state: `nodes ++ edges` model `self.graph`, the two maps model
`self.asset_metadata` and `self.vulnerability_data`. -/
structure Engine where
  nodes : List String
  edges : List Edge
  asset_metadata : List (String × AssetMeta)
  vulnerability_data : List (String × List Vuln)
deriving DecidableEq

/-- `DigitalTwinEngine.__init__`: empty graph and maps. -/
def emptyEngine : Engine := ⟨[], [], [], []⟩

/-- `networkx.DiGraph.add_node`: append the node if absent, else no-op. -/
def addNodeRaw (nodes : List String) (n : String) : List String :=
  if n ∈ nodes then nodes else nodes ++ [n]

/-- `networkx.DiGraph.add_edge`: replace the data of an existing
`(source, target)` edge in place, else append the edge. -/
def addEdgeRaw : List Edge → Edge → List Edge
  | [], ed => [ed]
  | x :: rest, ed =>
    if x.source = ed.source ∧ x.target = ed.target then ed :: rest
    else x :: addEdgeRaw rest ed

/-- `DigitalTwinEngine.add_asset`.  The optional Python argument
`metadata=None` is modelled by `Option`; `metadata or {}` collapses both
`None` and `{}` to the empty map. -/
def add_asset (e : Engine) (asset_id asset_type name criticality zone : String)
    (metadata : Option (List (String × String))) : Engine :=
  { e with
    nodes := addNodeRaw e.nodes asset_id,
    asset_metadata := dset e.asset_metadata asset_id
      { id := asset_id, typ := asset_type, name := name,
        criticality := criticality, zone := zone,
        compromised := false, compromise_time := none,
        metadata := metadata.getD [] } }

/-- `DigitalTwinEngine.add_connection`.  `protocols or ["tcp"]` collapses both
`None` and the empty list to `["tcp"]`.  `add_edge` inserts missing endpoint
nodes (source first, then target, as networkx does). -/
def add_connection (e : Engine) (source_id target_id connection_type : String)
    (protocols : Option (List String)) (weight : ℚ) (bidirectional : Bool) :
    Engine :=
  let protos := if (protocols.getD []) = [] then ["tcp"] else protocols.getD []
  let e1 : Engine :=
    { e with
      nodes := addNodeRaw (addNodeRaw e.nodes source_id) target_id,
      edges := addEdgeRaw e.edges
        ⟨source_id, target_id, connection_type, protos, weight⟩ }
  if bidirectional then
    { e1 with
      edges := addEdgeRaw e1.edges
        ⟨target_id, source_id, connection_type, protos, weight⟩ }
  else e1

/-- `DigitalTwinEngine.add_vulnerability`: append to the asset's vulnerability
list, creating the list if absent.  No existence check on the asset. -/
def add_vulnerability (e : Engine) (asset_id cve_id : String) (cvss_score : ℚ)
    (exploitable network_exploitable : Bool) : Engine :=
  { e with
    vulnerability_data := dset e.vulnerability_data asset_id
      ((dlookup e.vulnerability_data asset_id).getD [] ++
        [⟨cve_id, cvss_score, exploitable, network_exploitable⟩]) }

/-- `self.graph.neighbors(u)`: successors of `u` in edge-insertion order
(networkx keeps per-node adjacency in insertion order). -/
def neighbors (e : Engine) (u : String) : List String :=
  e.edges.filterMap (fun ed => if ed.source = u then some ed.target else none)

/-- Python `round(x, 2)`.  (CPython uses banker's rounding on binary floats;
this differs from `round2` only at exact half-cent ties, which no value in
the claims below reaches.) -/
def round2 (q : ℚ) : ℚ := ((round (q * 100) : ℤ) : ℚ) / 100

/-- Well-formedness facts that every graph reachable through the engine's own
operations enjoys (networkx cannot hold duplicate nodes, parallel edges, or an
edge with a missing endpoint, and `add_connection` never stores an empty
protocol list). -/
def WFgraph (e : Engine) : Prop :=
  e.nodes.Nodup ∧
  (e.edges.map (fun ed => (ed.source, ed.target))).Nodup ∧
  (∀ ed ∈ e.edges, ed.source ∈ e.nodes ∧ ed.target ∈ e.nodes) ∧
  (∀ ed ∈ e.edges, ed.protocols ≠ [])

instance (e : Engine) : Decidable (WFgraph e) := by
  unfold WFgraph; infer_instance

/-! ### Lateral movement simulation (`simulate_lateral_movement`) -/

/-- One timeline entry `{time_step, newly_compromised, total_compromised}`. -/
structure TLEntry where
  time_step : Nat
  newly_compromised : List String
  total_compromised : Nat
deriving DecidableEq

/-- The simulation's mutable state: the `compromised` set (insertion order),
the per-step `newly_compromised` list, the engine's `asset_metadata` being
mutated, the index of the next `random.random()` draw, and the accumulated
timeline. -/
structure SimSt where
  compromised : List String
  newly : List String
  meta : List (String × AssetMeta)
  rngIdx : Nat
  timeline : List TLEntry
deriving DecidableEq

/-- The result dict of a completed simulation run. -/
structure SimResult where
  initial_compromise : String
  simulation_steps : Nat
  total_compromised : Nat
  compromised_assets : List String
  critical_assets_compromised : List String
  high_assets_compromised : List String
  timeline : List TLEntry
  propagation_rate : ℚ
deriving DecidableEq

/-- What a call of `simulate_lateral_movement` can do: return the
`{"error": "Asset not found"}` value (before touching any state), raise a
`KeyError` (a graph node without an `asset_metadata` record was marked), or
return a result together with the mutated `asset_metadata`. -/
inductive SimOutcome where
  | notFound : SimOutcome
  | keyError : SimOutcome
  | ok : SimResult → List (String × AssetMeta) → SimOutcome
deriving DecidableEq

/-- `max(v["cvss_score"] for v in vulns)` over a nonempty list. -/
def maxCvss : List Vuln → ℚ
  | [] => 0
  | [v] => v.cvss_score
  | v :: rest => max v.cvss_score (maxCvss rest)

/-- The probability bonus a propagation attempt on `n` gets from `n`'s
network-exploitable vulnerabilities: `(max_cvss / 10) * 0.3` if there is at
least one, else `0`. -/
def bonus (vd : List (String × List Vuln)) (n : String) : ℚ :=
  match dlookup vd n with
  | none => 0
  | some vulns =>
    let ev := vulns.filter (·.network_exploitable)
    if ev = [] then 0 else (maxCvss ev / 10) * (3 / 10)

/-- `self.asset_metadata[a]["compromised"] = True;`
`self.asset_metadata[a]["compromise_time"] = t` — `none` is the `KeyError`. -/
def metaMark (m : List (String × AssetMeta)) (a : String) (t : Nat) :
    Option (List (String × AssetMeta)) :=
  match dlookup m a with
  | none => none
  | some r => some (dset m a { r with compromised := true, compromise_time := some t })

/-- The inner loop `for neighbor in self.graph.neighbors(comp_asset)` of one
time step: skip neighbors already in the (live) compromised set, otherwise
consume one draw and, when it succeeds, mark the neighbor. -/
def attemptNeighbors (vd : List (String × List Vuln)) (prob : ℚ) (rng : ℕ → ℚ)
    (t : Nat) (st : SimSt) : List String → Option SimSt
  | [] => some st
  | n :: ns =>
    if n ∈ st.compromised then attemptNeighbors vd prob rng t st ns
    else
      let p := prob + bonus vd n
      if rng st.rngIdx < p then
        match metaMark st.meta n t with
        | none => none
        | some m' =>
          attemptNeighbors vd prob rng t
            { compromised := st.compromised ++ [n], newly := st.newly ++ [n],
              meta := m', rngIdx := st.rngIdx + 1, timeline := st.timeline } ns
      else
        attemptNeighbors vd prob rng t { st with rngIdx := st.rngIdx + 1 } ns

/-- The middle loop `for comp_asset in list(compromised)` of one time step;
the list of sources is the snapshot taken when the step began. -/
def sourcesLoop (e : Engine) (prob : ℚ) (rng : ℕ → ℚ) (t : Nat) (st : SimSt) :
    List String → Option SimSt
  | [] => some st
  | s :: ss =>
    match attemptNeighbors e.vulnerability_data prob rng t st (neighbors e s) with
    | none => none
    | some st' => sourcesLoop e prob rng t st' ss

/-- One time step `t`: reset `newly_compromised`, iterate over the snapshot of
the compromised set, then append the timeline entry. -/
def stepAt (e : Engine) (prob : ℚ) (rng : ℕ → ℚ) (t : Nat) (st : SimSt) :
    Option SimSt :=
  match sourcesLoop e prob rng t { st with newly := [] } st.compromised with
  | none => none
  | some st' =>
    some { st' with
      timeline := st'.timeline ++ [⟨t, st'.newly, st'.compromised.length⟩] }

/-- The loop `for t in range(1, time_steps + 1)`, with `rem` steps remaining
and `t` the current step number. -/
def simLoop (e : Engine) (prob : ℚ) (rng : ℕ → ℚ) : Nat → Nat → SimSt → Option SimSt
  | 0, _, st => some st
  | rem + 1, t, st =>
    match stepAt e prob rng t st with
    | none => none
    | some st' => simLoop e prob rng rem (t + 1) st'

/-- `for asset_id in self.asset_metadata: compromised = False; time = None`. -/
def resetMeta (m : List (String × AssetMeta)) : List (String × AssetMeta) :=
  m.map (fun p => (p.1, { p.2 with compromised := false, compromise_time := none }))

/-- The state right after the reset and the marking of the initial compromise
at time 0 (fails like the source does if the initial node has no metadata). -/
def initSt (e : Engine) (initial : String) : Option SimSt :=
  match metaMark (resetMeta e.asset_metadata) initial 0 with
  | none => none
  | some m0 => some ⟨[initial], [], m0, 0, [⟨0, [initial], 1⟩]⟩

/-- The simulation state after the first `k` time steps of a run. -/
def runSteps (e : Engine) (initial : String) (prob : ℚ) (rng : ℕ → ℚ)
    (k : Nat) : Option SimSt :=
  match initSt e initial with
  | none => none
  | some s0 => simLoop e prob rng k 1 s0

/-- `DigitalTwinEngine.simulate_lateral_movement`.  The final criticality
breakdown indexes `self.asset_metadata[aid]` directly; every compromised id
has been written to `asset_metadata` earlier in the run, so that lookup never
fails and is rendered with a total lookup here. -/
def simulate_lateral_movement (e : Engine) (initial_compromise : String)
    (time_steps : Nat) (propagation_probability : ℚ) (rng : ℕ → ℚ) : SimOutcome :=
  if initial_compromise ∉ e.nodes then .notFound
  else
    match runSteps e initial_compromise propagation_probability rng time_steps with
    | none => .keyError
    | some st =>
      .ok
        { initial_compromise := initial_compromise,
          simulation_steps := time_steps,
          total_compromised := st.compromised.length,
          compromised_assets := st.compromised,
          critical_assets_compromised := st.compromised.filter
            (fun a => (dlookup st.meta a).map (·.criticality) = some "critical"),
          high_assets_compromised := st.compromised.filter
            (fun a => (dlookup st.meta a).map (·.criticality) = some "high"),
          timeline := st.timeline,
          propagation_rate :=
            if 0 < time_steps then (st.compromised.length : ℚ) / time_steps else 0 }
        st.meta

/-- Number of `(pre-step compromised source, pre-step uncompromised neighbor)`
directed edge pairs of one time step — the number of independent attempts the
spec's step model prescribes. -/
def specStepAttempts (e : Engine) (comp : List String) : Nat :=
  (comp.map (fun s => (neighbors e s).countP (fun n => decide (n ∉ comp)))).sum

/-- Projection: `total_compromised` of a successful simulation. -/
def simTotal : SimOutcome → Option Nat
  | .ok r _ => some r.total_compromised
  | _ => none

/-- Projection: `compromised_assets` of a successful simulation. -/
def simCompromised : SimOutcome → Option (List String)
  | .ok r _ => some r.compromised_assets
  | _ => none

/-- Projection: the final `compromised` flag of asset `a`. -/
def simFlag (o : SimOutcome) (a : String) : Option Bool :=
  match o with
  | .ok _ m => (dlookup m a).map (·.compromised)
  | _ => none

/-- Projection: the `compromised` flag of `a` in the state after `k` steps. -/
def runFlag (e : Engine) (initial : String) (prob : ℚ) (rng : ℕ → ℚ)
    (k : Nat) (a : String) : Option Bool :=
  (runSteps e initial prob rng k).bind (fun st => (dlookup st.meta a).map (·.compromised))

/-! ### Blast radius (`calculate_blast_radius`) -/

/-- `self.asset_metadata.get(aid, {}).get("criticality", "medium")`. -/
def critOf (m : List (String × AssetMeta)) (aid : String) : String :=
  ((dlookup m aid).map (·.criticality)).getD "medium"

/-- `criticality_weights.get(crit, 4)` with
`{critical: 10, high: 7, medium: 4, low: 1}`. -/
def critWeight (c : String) : ℚ :=
  if c = "critical" then 10
  else if c = "high" then 7
  else if c = "medium" then 4
  else if c = "low" then 1
  else 4

/-- Scan one node's neighbor list against the global `visited` set, extending
`visited` and `next_level` in order. -/
def scanNbrs (visited next : List String) : List String → List String × List String
  | [] => (visited, next)
  | n :: ns =>
    if n ∈ visited then scanNbrs visited next ns
    else scanNbrs (visited ++ [n]) (next ++ [n]) ns

/-- `for current in current_level: for neighbor in neighbors(current): ...` -/
def expandLevel (e : Engine) (visited next : List String) :
    List String → List String × List String
  | [] => (visited, next)
  | c :: cs =>
    let vn := scanNbrs visited next (neighbors e c)
    expandLevel e vn.1 vn.2 cs

/-- `for hop in range(1, max_hops + 1)`: produce the hop-1..hop-maxHops
levels (each possibly empty), threading the global visited set. -/
def layersLoop (e : Engine) (visited current : List String) : Nat → List (List String)
  | 0 => []
  | k + 1 =>
    let vn := expandLevel e visited [] current
    vn.2 :: layersLoop e vn.1 vn.2 k

/-- `reachable_by_hop` as a list whose index is the hop: hop 0 is `[x]`. -/
def blastLayers (e : Engine) (x : String) (maxHops : Nat) : List (List String) :=
  [x] :: layersLoop e [x] [x] maxHops

/-- One hop level's raw criticality-weight sum (before decay). -/
def layerWeightSum (m : List (String × AssetMeta)) (layer : List String) : ℚ :=
  (layer.map (fun aid => critWeight (critOf m aid))).sum

/-- The risk loop over `reachable_by_hop.items()` (hop index `h` counts from
the given start): returns `(total_risk, risk_by_hop)`; `risk_by_hop` holds the
per-hop value rounded to 2 decimals while `total_risk` accumulates the
unrounded values. -/
def riskLoop (m : List (String × AssetMeta)) : Nat → List (List String) → ℚ × List (Nat × ℚ)
  | _, [] => (0, [])
  | h, layer :: rest =>
    let hr := layerWeightSum m layer * (1 / (h + 1 : ℚ))
    let tl := riskLoop m (h + 1) rest
    (hr + tl.1, (h, round2 hr) :: tl.2)

/-- `affected_by_criticality`: distribute the affected ids over the four fixed
tiers; an id whose (defaulted) criticality is none of the four raises a
`KeyError` in the source, modelled by `none`. -/
def categorize (m : List (String × AssetMeta)) :
    List String → List String × List String × List String × List String →
    Option (List String × List String × List String × List String)
  | [], acc => some acc
  | a :: rest, (cs, hs, ms, ls) =>
    match critOf m a with
    | "critical" => categorize m rest (cs ++ [a], hs, ms, ls)
    | "high" => categorize m rest (cs, hs ++ [a], ms, ls)
    | "medium" => categorize m rest (cs, hs, ms ++ [a], ls)
    | "low" => categorize m rest (cs, hs, ms, ls ++ [a])
    | _ => none

/-- The result dict of `calculate_blast_radius`. -/
structure BlastResult where
  source_asset : String
  max_hops_analyzed : Nat
  total_affected_assets : Nat
  affected_by_hop : List (Nat × Nat)
  affected_by_criticality : List (String × Nat)
  risk_score : ℚ
  risk_by_hop : List (Nat × ℚ)
  critical_assets_at_risk : List String
  high_assets_at_risk : List String
deriving DecidableEq

/-- Outcome of `calculate_blast_radius` (not-found value, `KeyError`, or the
result dict). -/
inductive BlastOutcome where
  | notFound : BlastOutcome
  | keyError : BlastOutcome
  | ok : BlastResult → BlastOutcome
deriving DecidableEq

/-- `DigitalTwinEngine.calculate_blast_radius`. -/
def calculate_blast_radius (e : Engine) (asset_id : String) (max_hops : Nat) :
    BlastOutcome :=
  if asset_id ∉ e.nodes then .notFound
  else
    let layers := blastLayers e asset_id max_hops
    let tr := riskLoop e.asset_metadata 0 layers
    let all_affected := (layers.drop 1).flatten
    match categorize e.asset_metadata all_affected ([], [], [], []) with
    | none => .keyError
    | some (cs, hs, ms, ls) =>
      .ok
        { source_asset := asset_id,
          max_hops_analyzed := max_hops,
          total_affected_assets := all_affected.length,
          affected_by_hop := ((layers.drop 1).enum).map (fun p => (p.1 + 1, p.2.length)),
          affected_by_criticality :=
            [("critical", cs.length), ("high", hs.length),
             ("medium", ms.length), ("low", ls.length)],
          risk_score := round2 tr.1,
          risk_by_hop := tr.2,
          critical_assets_at_risk := cs,
          high_assets_at_risk := hs }

/-- Projection: `risk_score` of a successful blast-radius analysis. -/
def blastRisk : BlastOutcome → Option ℚ
  | .ok r => some r.risk_score
  | _ => none

/-- Projection: `total_affected_assets` of a successful analysis. -/
def blastAffected : BlastOutcome → Option Nat
  | .ok r => some r.total_affected_assets
  | _ => none

/-- The spec-side aggregate: the sum over the hops `h, h+1, ...` carried by
the layer list of that hop's criticality-weight sum decayed by `1/(hop+1)`. -/
def specBlastRisk (m : List (String × AssetMeta)) : Nat → List (List String) → ℚ
  | _, [] => 0
  | h, layer :: rest =>
    layerWeightSum m layer * (1 / (h + 1 : ℚ)) + specBlastRisk m (h + 1) rest

/-- All stored criticality tiers are among the four recognized ones (the
categorize step of `calculate_blast_radius` raises on any other value). -/
def CritsValid (e : Engine) : Prop :=
  ∀ p ∈ e.asset_metadata, p.2.criticality ∈ ["critical", "high", "medium", "low"]

instance (e : Engine) : Decidable (CritsValid e) := by
  unfold CritsValid; infer_instance

/-! ### Critical paths (`find_critical_paths`, `_calculate_path_risk`) -/

/-- One entry of the `find_critical_paths` result. -/
structure CritPathRec where
  entry_point : String
  target : String
  path : List String
  path_length : Nat
  risk_score : ℚ
deriving DecidableEq

/-- `_calculate_path_risk`: `round(10/len(path) + vuln_bonus + crit_bonus, 2)`
(0 for the empty path). -/
def _calculate_path_risk (e : Engine) (path : List String) : ℚ :=
  if h : path = [] then 0
  else
    let base_risk := 10 / (path.length : ℚ)
    let vuln_bonus := (path.map (fun a =>
      ((dlookup e.vulnerability_data a).getD []).foldl
        (fun acc v => if v.network_exploitable then acc + v.cvss_score * (1 / 10) else acc)
        0)).sum
    let final_crit :=
      ((dlookup e.asset_metadata (path.getLast h)).map (·.criticality)).getD "medium"
    let criticality_bonus : ℚ :=
      if final_crit = "critical" then 5
      else if final_crit = "high" then 3
      else if final_crit = "medium" then 1
      else if final_crit = "low" then 0
      else 1
    round2 (base_risk + vuln_bonus + criticality_bonus)

/-! ### Attack-path search (`find_attack_paths_bfs` / `find_attack_paths_dfs`)

Both searches recurse along paths that grow by one node per call.  The BFS
queue processing is not structurally recursive, so both functions carry an
explicit fuel argument; the entry points pass a fuel that provably dominates
the recursion (see `bfsGo_fuel_mem` and `dfsGo_fuel_mem` below), so the
fuel-exhaustion branch is unreachable from them. -/

/-- The body of BFS's `for neighbor in self.graph.neighbors(current)` loop:
skip neighbors already on the path, then skip (and otherwise record) path
tuples already in `visited_paths`, appending fresh extensions to the queue. -/
def enqueueChildren (p : List String) :
    List String → List (String × List String) → List (List String) →
    List (String × List String) × List (List String)
  | [], queue, visited => (queue, visited)
  | n :: ns, queue, visited =>
    if n ∈ p then enqueueChildren p ns queue visited
    else if (p ++ [n]) ∈ visited then enqueueChildren p ns queue visited
    else enqueueChildren p ns (queue ++ [(n, p ++ [n])]) (visited ++ [p ++ [n]])

/-- The BFS `while queue:` loop.  Pop `(current, path)`; drop it past the
depth bound; collect it on reaching the target; otherwise enqueue the fresh
one-node extensions. -/
def bfsGo (e : Engine) (t : String) (d : Nat) :
    Nat → List (String × List String) → List (List String) → List (List String)
  | _, [], _ => []
  | 0, _ :: _, _ => []
  | fuel + 1, (c, p) :: qs, visited =>
    if d < p.length then bfsGo e t d fuel qs visited
    else if c = t then p :: bfsGo e t d fuel qs visited
    else
      let qv := enqueueChildren p (neighbors e c) qs visited
      bfsGo e t d fuel qv.1 qv.2

/-- `DigitalTwinEngine.find_attack_paths_bfs`.  The fuel
`(|edges| + 1) ^ (max_depth + 1)` equals `measQ` of the initial queue and is
an invariant upper bound of the whole loop. -/
def find_attack_paths_bfs (e : Engine) (start_id target_id : String)
    (max_depth : Nat) : List (List String) :=
  if start_id ∈ e.nodes ∧ target_id ∈ e.nodes then
    bfsGo e target_id max_depth ((e.edges.length + 1) ^ (max_depth + 1))
      [(start_id, [start_id])] []
  else []

/-- The DFS recursion `dfs_recursive(current, path, visited)`.  Throughout
the source the mutable `visited` set equals the set of nodes of `path`, so
the membership test is rendered on `path` directly.  The fuel starts at
`max_depth + 1` and satisfies `d + 2 ≤ fuel + path.length` at every call. -/
def dfsGo (e : Engine) (t : String) (d : Nat) :
    Nat → List String → String → List (List String)
  | 0, _, _ => []
  | fuel + 1, path, current =>
    if d < path.length then []
    else if current = t then [path]
    else
      ((neighbors e current).map (fun n =>
        if n ∈ path then [] else dfsGo e t d fuel (path ++ [n]) n)).flatten

/-- `DigitalTwinEngine.find_attack_paths_dfs`. -/
def find_attack_paths_dfs (e : Engine) (start_id target_id : String)
    (max_depth : Nat) : List (List String) :=
  if start_id ∈ e.nodes ∧ target_id ∈ e.nodes then
    dfsGo e target_id max_depth (max_depth + 1) [start_id] start_id
  else []

/-- The common characterization of both searches: `Completes c p res` holds
when the partial path `p` (ending at `c`) extends, by repeatedly stepping to a
neighbor not yet on the path while the depth bound allows it, to the completed
path `res` that ends at the target. -/
inductive Completes (e : Engine) (t : String) (d : Nat) :
    String → List String → List String → Prop
  | done (p : List String) (hp : p.length ≤ d) : Completes e t d t p p
  | step (c : String) (p : List String) (n : String) (res : List String)
      (hlen : p.length ≤ d) (hct : c ≠ t) (hn : n ∈ neighbors e c) (hnp : n ∉ p)
      (h : Completes e t d n (p ++ [n]) res) : Completes e t d c p res

/-- `DigitalTwinEngine.find_critical_paths` before sorting: every BFS path
from a dmz/external entry point to a critical target, at depth bound 8. -/
def critPathsRaw (e : Engine) : List CritPathRec :=
  let entry_points := e.asset_metadata.filterMap
    (fun p => if p.2.zone = "dmz" ∨ p.2.zone = "external" then some p.1 else none)
  let critical_targets := e.asset_metadata.filterMap
    (fun p => if p.2.criticality = "critical" then some p.1 else none)
  entry_points.flatMap (fun en =>
    critical_targets.flatMap (fun tg =>
      (find_attack_paths_bfs e en tg 8).map (fun path =>
        { entry_point := en, target := tg, path := path,
          path_length := path.length,
          risk_score := _calculate_path_risk e path })))

/-- `DigitalTwinEngine.find_critical_paths`: sort by `risk_score` descending
(Python's stable `list.sort(reverse=True)`) and keep the top 20. -/
def find_critical_paths (e : Engine) : List CritPathRec :=
  ((critPathsRaw e).mergeSort (fun a b => b.risk_score ≤ a.risk_score)).take 20

/-- The spec's `vulnBonus`: over every node of the path, over every
network-exploitable vulnerability of that node, sum `cvssScore * 0.1`. -/
def specVulnBonus (e : Engine) (path : List String) : ℚ :=
  (path.map (fun a =>
    ((((dlookup e.vulnerability_data a).getD []).filter
        (·.network_exploitable)).map (fun v => v.cvss_score * (1 / 10))).sum)).sum

/-- The spec's `criticalityBonus` of a path: taken from the final node via
`{critical: 5, high: 3, medium: 1, low: 0}` (defaulting like the source). -/
def specCritBonus (e : Engine) (path : List String) : ℚ :=
  let c := ((dlookup e.asset_metadata (path.getLastD "")).map (·.criticality)).getD "medium"
  if c = "critical" then 5
  else if c = "high" then 3
  else if c = "medium" then 1
  else if c = "low" then 0
  else 1

/-! ### Export / import (`export_to_dict` / `import_from_dict`) -/

/-- One exported node dict: the id plus (for nodes that have one) the full
metadata record.  (`import_from_dict` reads each field with a default, and
`export_to_dict` writes either the whole record or none of it, so the record
is carried as a whole.) -/
structure SnapNode where
  id : String
  fields : Option AssetMeta
deriving DecidableEq

/-- One snapshot edge dict; the attribute keys are optional for the importer
(`edge.get(..., default)`), and the exporter always writes all of them. -/
structure SnapEdge where
  source : String
  target : String
  typ : Option String
  protocols : Option (List String)
  weight : Option ℚ
deriving DecidableEq

/-- The snapshot dict.  The source's export also embeds a read-only `stats`
block, which `import_from_dict` ignores entirely; it is not modelled. -/
structure Snapshot where
  nodes : List SnapNode
  edges : List SnapEdge
  vulnerabilities : List (String × List Vuln)
deriving DecidableEq

/-- `DigitalTwinEngine.export_to_dict` (sans the ignored `stats` block). -/
def export_to_dict (e : Engine) : Snapshot :=
  { nodes := e.nodes.map (fun n => ⟨n, dlookup e.asset_metadata n⟩),
    edges := e.edges.map (fun ed =>
      ⟨ed.source, ed.target, some ed.typ, some ed.protocols, some ed.weight⟩),
    vulnerabilities := e.vulnerability_data }

/-- `DigitalTwinEngine.import_from_dict`: clear all prior state, re-add every
snapshot node via `add_asset` (each field defaulted when absent), re-add every
snapshot edge via `add_connection`, then install the vulnerability map
wholesale. -/
def import_from_dict (_e : Engine) (data : Snapshot) : Engine :=
  let cleared : Engine := ⟨[], [], [], []⟩
  let withNodes := data.nodes.foldl (fun acc nd =>
    add_asset acc nd.id
      ((nd.fields.map (·.typ)).getD "unknown")
      ((nd.fields.map (·.name)).getD nd.id)
      ((nd.fields.map (·.criticality)).getD "medium")
      ((nd.fields.map (·.zone)).getD "internal")
      (some ((nd.fields.map (·.metadata)).getD []))) cleared
  let withEdges := data.edges.foldl (fun acc ed =>
    add_connection acc ed.source ed.target (ed.typ.getD "network")
      (some (ed.protocols.getD ["tcp"])) (ed.weight.getD 1) false) withNodes
  { withEdges with vulnerability_data := data.vulnerabilities }

/-! ### Concrete scenarios used by counterexamples and witnesses -/

/-- The spec's two-node scenario: `A {zone: dmz, criticality: high}`,
`B {zone: internal, criticality: critical}`, one directed edge `A → B`. -/
def engAB : Engine :=
  add_connection
    (add_asset
      (add_asset emptyEngine "A" "server" "A" "high" "dmz" none)
      "B" "server" "B" "critical" "internal" none)
    "A" "B" "network" none 1 false

/-- `engAB` with a network-exploitable CVSS-10 vulnerability on `B`. -/
def engABvuln : Engine := add_vulnerability engAB "B" "CVE-X" 10 false true

/-- Diamond graph `A → B`, `A → C`, `B → D`, `C → D` (all medium/internal,
no vulnerabilities): at step 2 both `B` and `C` are pre-step compromised
sources with an edge into the uncompromised `D`. -/
def engDiamond : Engine :=
  add_connection
    (add_connection
      (add_connection
        (add_connection
          (add_asset
            (add_asset
              (add_asset
                (add_asset emptyEngine "A" "server" "A" "medium" "internal" none)
                "B" "server" "B" "medium" "internal" none)
              "C" "server" "C" "medium" "internal" none)
            "D" "server" "D" "medium" "internal" none)
          "A" "B" "network" none 1 false)
        "A" "C" "network" none 1 false)
      "B" "D" "network" none 1 false)
    "C" "D" "network" none 1 false

/-- Chain `A (dmz, high) → B (internal, medium) → C (internal, critical)`:
its only critical path has three nodes, so its risk has a non-terminating
decimal before rounding. -/
def engChain : Engine :=
  add_connection
    (add_connection
      (add_asset
        (add_asset
          (add_asset emptyEngine "A" "server" "A" "high" "dmz" none)
          "B" "server" "B" "medium" "internal" none)
        "C" "server" "C" "critical" "internal" none)
      "A" "B" "network" none 1 false)
    "B" "C" "network" none 1 false

/-- An engine holding one asset, used to watch `import_from_dict` discard
prior state. -/
def engOld : Engine := add_asset emptyEngine "old" "server" "Old" "low" "internal" none

/-- A malformed snapshot: the edge references node `"B"`, which is absent
from the node list. -/
def badSnap : Snapshot :=
  { nodes := [⟨"A", none⟩],
    edges := [⟨"A", "B", none, none, none⟩],
    vulnerabilities := [] }

/-- A malformed snapshot with a duplicate node id: `"A"` appears twice, first
with criticality "high", then with criticality "low". -/
def dupSnap : Snapshot :=
  { nodes :=
      [⟨"A", some ⟨"A", "server", "A", "high", "dmz", false, none, []⟩⟩,
       ⟨"A", some ⟨"A", "server", "A2", "low", "internal", false, none, []⟩⟩],
    edges := [],
    vulnerabilities := [] }

/-- The edge record `import_from_dict`'s call of `add_connection` rebuilds
from a snapshot edge. -/
def rebuiltEdge (ed : SnapEdge) : Edge :=
  ⟨ed.source, ed.target, ed.typ.getD "network",
    if (some (ed.protocols.getD ["tcp"])).getD [] = [] then ["tcp"]
    else (some (ed.protocols.getD ["tcp"])).getD [],
    ed.weight.getD 1⟩

/-- The termination measure of the BFS loop: each queue entry weighs
`B ^ (d + 2 - |path|)` where `B` exceeds every node's out-degree.  Popping an
entry and enqueuing its at most `B - 1` children (each one node longer)
strictly decreases the total. -/
def measQ (d B : Nat) (queue : List (String × List String)) : Nat :=
  (queue.map (fun cp => B ^ (d + 2 - cp.2.length))).sum

/-- The loop invariant of the BFS queue/visited pair, for a search started at
`s`: no queued path is a proper prefix of a visited path, the queued paths
are pairwise distinct and nonempty, and every queued path other than the
initial `[s]` has already been recorded in `visited_paths`.  Under it the
`visited_paths` membership test never rejects a candidate extension. -/
def BfsInv (s : String) (queue : List (String × List String))
    (visited : List (List String)) : Prop :=
  (∀ cp ∈ queue, ∀ q ∈ visited, cp.2 <+: q → cp.2 = q) ∧
  (queue.map Prod.snd).Nodup ∧
  (∀ cp ∈ queue, cp.2 ∈ visited ∨ cp.2 = [s]) ∧
  (∀ cp ∈ queue, cp.2 ≠ [])

/-! ## Theorems

First a few facts about the association-list dictionary operations. -/

theorem dlookup_dset_self {β : Type} :
    ∀ (m : List (String × β)) (k : String) (v : β), dlookup (dset m k v) k = some v
  | [], k, v => by simp [dset, dlookup]
  | (k', v') :: rest, k, v => by
    by_cases h : k' = k
    · simp [dset, h, dlookup]
    · simp [dset, h, dlookup, dlookup_dset_self rest k v]

theorem dlookup_dset_ne {β : Type} :
    ∀ (m : List (String × β)) (k : String) (v : β) (k' : String), k' ≠ k →
      dlookup (dset m k v) k' = dlookup m k'
  | [], k, v, k', h => by simp [dset, dlookup, Ne.symm h]
  | (a, b) :: rest, k, v, k', h => by
    by_cases ha : a = k
    · subst ha
      simp [dset, dlookup, Ne.symm h]
    · simp only [dset, if_neg ha, dlookup]
      by_cases ha' : a = k'
      · simp [ha']
      · simp [ha', dlookup_dset_ne rest k v k' h]

theorem dlookup_mem {β : Type} :
    ∀ (m : List (String × β)) (k : String) (v : β), dlookup m k = some v → (k, v) ∈ m
  | [], _, _, h => by simp [dlookup] at h
  | (a, b) :: rest, k, v, h => by
    by_cases ha : a = k
    · subst ha
      simp only [dlookup] at h
      simp only [if_pos, Option.some.injEq, if_true, eq_self_iff_true] at h
      simp [h]
    · simp only [dlookup, if_neg ha] at h
      exact List.mem_cons_of_mem _ (dlookup_mem rest k v h)

/-- C10. `add_asset` on an id already in the graph: the node set, the edge
list and the vulnerability map are untouched, every other asset's metadata is
untouched, and the id's metadata record is replaced wholesale by a fresh one
(compromised reset to `false`, `compromise_time` to `none`, every field taken
from the new arguments). -/
theorem add_asset_readd_frame (e : Engine)
    (aid atype aname acrit azone : String) (md : Option (List (String × String)))
    (h : aid ∈ e.nodes) :
    (add_asset e aid atype aname acrit azone md).nodes = e.nodes ∧
    (add_asset e aid atype aname acrit azone md).edges = e.edges ∧
    (add_asset e aid atype aname acrit azone md).vulnerability_data =
      e.vulnerability_data ∧
    dlookup (add_asset e aid atype aname acrit azone md).asset_metadata aid =
      some { id := aid, typ := atype, name := aname, criticality := acrit,
             zone := azone, compromised := false, compromise_time := none,
             metadata := md.getD [] } ∧
    (∀ b, b ≠ aid →
      dlookup (add_asset e aid atype aname acrit azone md).asset_metadata b =
        dlookup e.asset_metadata b) := by
  refine ⟨?_, rfl, rfl, ?_, ?_⟩
  · simp [add_asset, addNodeRaw, h]
  · exact dlookup_dset_self _ _ _
  · intro b hb
    exact dlookup_dset_ne _ _ _ _ hb

/-- C10 witness: re-adding `"A"` to the two-node scenario engine. -/
theorem add_asset_readd_frame_witness :
    ("A" ∈ engAB.nodes) ∧
    dlookup (add_asset engAB "A" "db" "A2" "low" "internal" none).asset_metadata "A" =
      some { id := "A", typ := "db", name := "A2", criticality := "low",
             zone := "internal", compromised := false, compromise_time := none,
             metadata := [] } :=
  ⟨by decide,
    (add_asset_readd_frame engAB "A" "db" "A2" "low" "internal" none (by decide)).2.2.2.1⟩

/-- C3 counterexample: the snapshot `badSnap` is malformed (its edge
references the absent node `"B"`), yet `import_from_dict` neither rejects it
nor leaves the prior state untouched: the prior node `"old"` is gone, and the
missing endpoint `"B"` is silently created as a bare graph node without an
`asset_metadata` record. -/
theorem import_malformed_not_rejected :
    ("old" ∈ engOld.nodes) ∧
    ("old" ∉ (import_from_dict engOld badSnap).nodes) ∧
    ("B" ∈ (import_from_dict engOld badSnap).nodes) ∧
    dlookup (import_from_dict engOld badSnap).asset_metadata "B" = none := by
  refine ⟨by decide, by decide, by decide, by decide⟩

/-- C3 amended: `import_from_dict` performs no validation at all.  It does
replace the whole prior state (the result is a function of the snapshot
alone, whatever engine it is applied to), but a malformed snapshot is
imported rather than rejected: an edge endpoint absent from the node list is
silently created as a bare graph node (shown here on `badSnap`), and a
duplicate node id is resolved by overwriting — the node is stored once and
its metadata record is the last occurrence's (shown here on `dupSnap`, where
the second `"A"` record, with criticality "low", wins). -/
theorem import_replaces_state_without_validation :
    (∀ (e1 e2 : Engine) (s : Snapshot), import_from_dict e1 s = import_from_dict e2 s) ∧
    ("B" ∈ (import_from_dict engOld badSnap).nodes) ∧
    dlookup (import_from_dict engOld badSnap).asset_metadata "B" = none ∧
    (import_from_dict engOld dupSnap).nodes = ["A"] ∧
    dlookup (import_from_dict engOld dupSnap).asset_metadata "A" =
      some ⟨"A", "server", "A2", "low", "internal", false, none, []⟩ :=
  ⟨fun _ _ _ => rfl, by decide, by decide, by decide, by decide⟩

/-- C5 counterexample: `propagation_probability = 2` lies outside `[0, 1]`,
yet the run is not rejected: it returns an ordinary result and modifies the
compromise state (`B` ends up compromised). -/
theorem simulate_accepts_invalid_probability :
    simTotal (simulate_lateral_movement engAB "A" 1 2 (fun _ => 0)) = some 2 ∧
    simFlag (simulate_lateral_movement engAB "A" 1 2 (fun _ => 0)) "B" = some true := by
  constructor <;>
    simp +decide [simulate_lateral_movement, runSteps, initSt, simLoop, stepAt,
      sourcesLoop, attemptNeighbors, metaMark, dlookup, dset, resetMeta, neighbors,
      bonus, engAB, add_connection, add_asset, addNodeRaw, addEdgeRaw, emptyEngine,
      simTotal, simFlag]

/-- C5 amended: `simulate_lateral_movement` validates nothing but the
existence of `initial_compromise`: an absent node yields the not-found value
(returned before any state is touched), and for a present node the run
proceeds whatever `time_steps` and `propagation_probability` are. -/
theorem simulate_validates_only_existence (e : Engine) (x : String) (N : Nat)
    (p : ℚ) (rng : ℕ → ℚ) :
    (x ∉ e.nodes → simulate_lateral_movement e x N p rng = .notFound) ∧
    (x ∈ e.nodes → simulate_lateral_movement e x N p rng ≠ .notFound) := by
  constructor
  · intro h
    simp [simulate_lateral_movement, h]
  · intro h
    simp only [simulate_lateral_movement]
    rw [if_neg (by simp [h])]
    cases h' : runSteps e x p rng N <;> simp

/-- C5 witness: both halves of the amended statement at concrete inputs, the
second with the out-of-range probability `2`. -/
theorem simulate_validates_only_existence_witness :
    ("X" ∉ engAB.nodes ∧ simulate_lateral_movement engAB "X" 3 2 (fun _ => 0) = .notFound) ∧
    ("A" ∈ engAB.nodes ∧ simulate_lateral_movement engAB "A" 3 2 (fun _ => 0) ≠ .notFound) :=
  ⟨⟨by decide, (simulate_validates_only_existence engAB "X" 3 2 (fun _ => 0)).1 (by decide)⟩,
   ⟨by decide, (simulate_validates_only_existence engAB "A" 3 2 (fun _ => 0)).2 (by decide)⟩⟩

/-! ### Lemmas about one simulation run -/

theorem dlookup_resetMeta (m : List (String × AssetMeta)) (a : String) :
    dlookup (resetMeta m) a =
      (dlookup m a).map
        (fun r => { r with compromised := false, compromise_time := none }) := by
  induction m with
  | nil => simp [resetMeta, dlookup]
  | cons hd tl ih =>
    by_cases h : hd.1 = a <;> simp [resetMeta, dlookup, h] <;> simpa [resetMeta] using ih

theorem metaMark_mono (m m' : List (String × AssetMeta)) (n : String) (tm : Nat)
    (h : metaMark m n tm = some m') :
    ∀ a r, dlookup m a = some r → ∃ r', dlookup m' a = some r' ∧
      (r.compromised = true → r'.compromised = true) := by
  intro a r hr
  unfold metaMark at h
  cases hn : dlookup m n with
  | none => rw [hn] at h; exact absurd h (by simp)
  | some rn =>
    rw [hn] at h
    simp only [Option.some.injEq] at h
    subst h
    by_cases ha : a = n
    · subst ha
      exact ⟨_, dlookup_dset_self _ _ _, fun _ => rfl⟩
    · exact ⟨r, by rw [dlookup_dset_ne _ _ _ _ ha]; exact hr, fun hh => hh⟩

theorem attemptNeighbors_mono (vd : List (String × List Vuln)) (prob : ℚ)
    (rng : ℕ → ℚ) (tm : Nat) :
    ∀ (ns : List String) (st st' : SimSt),
      attemptNeighbors vd prob rng tm st ns = some st' →
      st.compromised <+: st'.compromised ∧
      (∀ a r, dlookup st.meta a = some r → ∃ r', dlookup st'.meta a = some r' ∧
        (r.compromised = true → r'.compromised = true))
  | [], st, st', h => by
    simp only [attemptNeighbors, Option.some.injEq] at h
    subst h
    exact ⟨List.prefix_refl _, fun a r hr => ⟨r, hr, fun hh => hh⟩⟩
  | n :: ns, st, st', h => by
    simp only [attemptNeighbors] at h
    by_cases hmem : n ∈ st.compromised
    · rw [if_pos hmem] at h
      exact attemptNeighbors_mono vd prob rng tm ns st st' h
    · rw [if_neg hmem] at h
      by_cases hdraw : rng st.rngIdx < prob + bonus vd n
      · rw [if_pos hdraw] at h
        cases hmm : metaMark st.meta n tm with
        | none => rw [hmm] at h; exact absurd h (by simp)
        | some m2 =>
          rw [hmm] at h
          obtain ⟨h1, h2⟩ := attemptNeighbors_mono vd prob rng tm ns _ st' h
          refine ⟨(List.prefix_append _ _).trans h1, ?_⟩
          intro a r hr
          obtain ⟨r2, hr2, himp2⟩ := metaMark_mono st.meta m2 n tm hmm a r hr
          obtain ⟨r3, hr3, himp3⟩ := h2 a r2 hr2
          exact ⟨r3, hr3, fun hh => himp3 (himp2 hh)⟩
      · rw [if_neg hdraw] at h
        exact attemptNeighbors_mono vd prob rng tm ns
          { st with rngIdx := st.rngIdx + 1 } st' h

theorem sourcesLoop_mono (e : Engine) (prob : ℚ) (rng : ℕ → ℚ) (tm : Nat) :
    ∀ (ss : List String) (st st' : SimSt),
      sourcesLoop e prob rng tm st ss = some st' →
      st.compromised <+: st'.compromised ∧
      (∀ a r, dlookup st.meta a = some r → ∃ r', dlookup st'.meta a = some r' ∧
        (r.compromised = true → r'.compromised = true))
  | [], st, st', h => by
    simp only [sourcesLoop, Option.some.injEq] at h
    subst h
    exact ⟨List.prefix_refl _, fun a r hr => ⟨r, hr, fun hh => hh⟩⟩
  | s :: ss, st, st', h => by
    simp only [sourcesLoop] at h
    cases ha : attemptNeighbors e.vulnerability_data prob rng tm st (neighbors e s) with
    | none => rw [ha] at h; exact absurd h (by simp)
    | some st1 =>
      rw [ha] at h
      obtain ⟨h1, h2⟩ := attemptNeighbors_mono e.vulnerability_data prob rng tm _ st st1 ha
      obtain ⟨h3, h4⟩ := sourcesLoop_mono e prob rng tm ss st1 st' h
      refine ⟨h1.trans h3, ?_⟩
      intro a r hr
      obtain ⟨r2, hr2, hi2⟩ := h2 a r hr
      obtain ⟨r3, hr3, hi3⟩ := h4 a r2 hr2
      exact ⟨r3, hr3, fun hh => hi3 (hi2 hh)⟩

theorem stepAt_mono (e : Engine) (prob : ℚ) (rng : ℕ → ℚ) (tm : Nat)
    (st st' : SimSt) (h : stepAt e prob rng tm st = some st') :
    st.compromised <+: st'.compromised ∧
    (∀ a r, dlookup st.meta a = some r → ∃ r', dlookup st'.meta a = some r' ∧
      (r.compromised = true → r'.compromised = true)) := by
  unfold stepAt at h
  cases hs : sourcesLoop e prob rng tm { st with newly := [] } st.compromised with
  | none => rw [hs] at h; exact absurd h (by simp)
  | some st1 =>
    rw [hs] at h
    simp only [Option.some.injEq] at h
    subst h
    exact sourcesLoop_mono e prob rng tm st.compromised { st with newly := [] } st1 hs

theorem simLoop_mono (e : Engine) (prob : ℚ) (rng : ℕ → ℚ) :
    ∀ (rem tm : Nat) (st st' : SimSt),
      simLoop e prob rng rem tm st = some st' →
      st.compromised <+: st'.compromised ∧
      (∀ a r, dlookup st.meta a = some r → ∃ r', dlookup st'.meta a = some r' ∧
        (r.compromised = true → r'.compromised = true))
  | 0, tm, st, st', h => by
    simp only [simLoop, Option.some.injEq] at h
    subst h
    exact ⟨List.prefix_refl _, fun a r hr => ⟨r, hr, fun hh => hh⟩⟩
  | rem + 1, tm, st, st', h => by
    simp only [simLoop] at h
    cases hstep : stepAt e prob rng tm st with
    | none => rw [hstep] at h; exact absurd h (by simp)
    | some st1 =>
      rw [hstep] at h
      obtain ⟨h1, h2⟩ := stepAt_mono e prob rng tm st st1 hstep
      obtain ⟨h3, h4⟩ := simLoop_mono e prob rng rem (tm + 1) st1 st' h
      refine ⟨h1.trans h3, ?_⟩
      intro a r hr
      obtain ⟨r2, hr2, hi2⟩ := h2 a r hr
      obtain ⟨r3, hr3, hi3⟩ := h4 a r2 hr2
      exact ⟨r3, hr3, fun hh => hi3 (hi2 hh)⟩

theorem simLoop_add (e : Engine) (prob : ℚ) (rng : ℕ → ℚ) :
    ∀ (k j tm : Nat) (st : SimSt),
      simLoop e prob rng (k + j) tm st =
        (simLoop e prob rng k tm st).bind (fun s => simLoop e prob rng j (tm + k) s)
  | 0, j, tm, st => by simp [simLoop]
  | k + 1, j, tm, st => by
    rw [Nat.succ_add]
    simp only [simLoop]
    cases hstep : stepAt e prob rng tm st with
    | none => simp
    | some st1 =>
      simp only [Option.bind_some]
      rw [simLoop_add e prob rng k j (tm + 1) st1]
      have : tm + 1 + k = tm + (k + 1) := by omega
      rw [this]

/-- C8. Within one simulation run the per-node `compromised` flag is
monotonic: the reset at the start of the run clears every flag, the initial
node is marked compromised with `compromise_time = 0`, and between any two
stages `t ≤ t'` of the same (non-failing) run no flag reverts from `true` to
`false`; the compromised set itself only grows (as a list, by appending). -/
theorem simulate_compromised_monotonic (e : Engine) (x : String) (p : ℚ)
    (rng : ℕ → ℚ) (t t' : Nat) (hle : t ≤ t')
    (hsucc : (runSteps e x p rng t').isSome) :
    (∀ a r, dlookup (resetMeta e.asset_metadata) a = some r → r.compromised = false) ∧
    (∀ st0, initSt e x = some st0 → ∃ r, dlookup st0.meta x = some r ∧
      r.compromised = true ∧ r.compromise_time = some 0) ∧
    (∀ a, runFlag e x p rng t a = some true → runFlag e x p rng t' a = some true) ∧
    (∀ c c', (runSteps e x p rng t).map SimSt.compromised = some c →
      (runSteps e x p rng t').map SimSt.compromised = some c' → c <+: c') := by
  refine ⟨?_, ?_, ?_⟩
  · intro a r hr
    rw [dlookup_resetMeta] at hr
    cases ha : dlookup e.asset_metadata a with
    | none => rw [ha] at hr; exact absurd hr (by simp)
    | some r0 =>
      rw [ha] at hr
      simp only [Option.map_some', Option.some.injEq] at hr
      rw [← hr]
  · intro st0 h0
    unfold initSt at h0
    cases hm : metaMark (resetMeta e.asset_metadata) x 0 with
    | none => rw [hm] at h0; exact absurd h0 (by simp)
    | some m0 =>
      rw [hm] at h0
      simp only [Option.some.injEq] at h0
      subst h0
      unfold metaMark at hm
      cases hl : dlookup (resetMeta e.asset_metadata) x with
      | none => rw [hl] at hm; exact absurd hm (by simp)
      | some r0 =>
        rw [hl] at hm
        simp only [Option.some.injEq] at hm
        rw [← hm]
        exact ⟨_, dlookup_dset_self _ _ _, rfl, rfl⟩
  · obtain ⟨j, hj⟩ : ∃ j, t' = t + j := ⟨t' - t, by omega⟩
    subst hj
    have hrun : ∀ st st', runSteps e x p rng t = some st →
        runSteps e x p rng (t + j) = some st' →
        st.compromised <+: st'.compromised ∧
        (∀ a r, dlookup st.meta a = some r → ∃ r', dlookup st'.meta a = some r' ∧
          (r.compromised = true → r'.compromised = true)) := by
      intro st st' h1 h2
      unfold runSteps at h1 h2
      cases h0 : initSt e x with
      | none => rw [h0] at h1; exact absurd h1 (by simp)
      | some s0 =>
        rw [h0] at h1 h2
        dsimp only at h1 h2
        rw [simLoop_add e p rng t j 1 s0, h1] at h2
        simp only [Option.some_bind] at h2
        exact simLoop_mono e p rng j (1 + t) st st' h2
    constructor
    · intro a hfa
      unfold runFlag at hfa ⊢
      cases h1 : runSteps e x p rng t with
      | none => rw [h1] at hfa; exact absurd hfa (by simp)
      | some st =>
        rw [h1] at hfa
        cases h2 : runSteps e x p rng (t + j) with
        | none => rw [h2] at hsucc; exact absurd hsucc (by simp)
        | some st' =>
          simp only [Option.some_bind] at hfa ⊢
          cases hla : dlookup st.meta a with
          | none => rw [hla] at hfa; exact absurd hfa (by simp)
          | some r =>
            rw [hla] at hfa
            simp only [Option.map_some', Option.some.injEq] at hfa
            obtain ⟨r', hr', himp⟩ := (hrun st st' h1 h2).2 a r hla
            rw [hr']
            simp [himp hfa]
    · intro c c' h1 h2
      cases hr1 : runSteps e x p rng t with
      | none => rw [hr1] at h1; exact absurd h1 (by simp)
      | some st =>
        cases hr2 : runSteps e x p rng (t + j) with
        | none => rw [hr2] at h2; exact absurd h2 (by simp)
        | some st' =>
          rw [hr1] at h1
          rw [hr2] at h2
          simp only [Option.map_some', Option.some.injEq] at h1 h2
          subst h1
          subst h2
          exact (hrun st st' hr1 hr2).1

/-- C8 witness: one step of the scenario engine with certain propagation. -/
theorem simulate_compromised_monotonic_witness :
    ((runSteps engAB "A" 1 (fun _ => 0) 1).isSome ∧ (0 : Nat) ≤ 1) ∧
    (∀ a, runFlag engAB "A" 1 (fun _ => 0) 0 a = some true →
      runFlag engAB "A" 1 (fun _ => 0) 1 a = some true) := by
  have hs : (runSteps engAB "A" 1 (fun _ => 0) 1).isSome := by
    simp +decide [runSteps, initSt, simLoop, stepAt, sourcesLoop, attemptNeighbors,
      metaMark, dlookup, dset, resetMeta, neighbors, bonus, engAB, add_connection,
      add_asset, addNodeRaw, addEdgeRaw, emptyEngine]
  exact ⟨⟨hs, by omega⟩,
    (simulate_compromised_monotonic engAB "A" 1 (fun _ => 0) 0 1 (by omega) hs).2.2.1⟩

/-! ### A time step in which no propagation attempt succeeds -/

theorem attemptNeighbors_all_fail (vd : List (String × List Vuln)) (prob : ℚ)
    (rng : ℕ → ℚ) (tm : Nat)
    (hno : ∀ i n, ¬ rng i < prob + bonus vd n) :
    ∀ (ns : List String) (st : SimSt),
      attemptNeighbors vd prob rng tm st ns =
        some { st with
          rngIdx := st.rngIdx + ns.countP (fun n => decide (n ∉ st.compromised)) }
  | [], st => by simp [attemptNeighbors]
  | n :: ns, st => by
    simp only [attemptNeighbors]
    by_cases hmem : n ∈ st.compromised
    · rw [if_pos hmem]
      rw [attemptNeighbors_all_fail vd prob rng tm hno ns st]
      simp [List.countP_cons, hmem]
    · rw [if_neg hmem, if_neg (hno st.rngIdx n)]
      rw [attemptNeighbors_all_fail vd prob rng tm hno ns { st with rngIdx := st.rngIdx + 1 }]
      simp [List.countP_cons, hmem] <;> omega

theorem sourcesLoop_all_fail (e : Engine) (prob : ℚ) (rng : ℕ → ℚ) (tm : Nat)
    (hno : ∀ i n, ¬ rng i < prob + bonus e.vulnerability_data n) :
    ∀ (ss : List String) (st : SimSt),
      sourcesLoop e prob rng tm st ss =
        some { st with
          rngIdx := st.rngIdx + (ss.map (fun s =>
            (neighbors e s).countP (fun n => decide (n ∉ st.compromised)))).sum }
  | [], st => by simp [sourcesLoop]
  | s :: ss, st => by
    simp only [sourcesLoop]
    rw [attemptNeighbors_all_fail e.vulnerability_data prob rng tm hno (neighbors e s) st]
    dsimp only
    rw [sourcesLoop_all_fail e prob rng tm hno ss]
    simp [List.map_cons, List.sum_cons] <;> omega

/-- When every draw of a step fails, the step consumes exactly one draw per
`(pre-step compromised source, pre-step uncompromised neighbor)` edge pair
and changes nothing but the draw index and the timeline. -/
theorem stepAt_all_fail (e : Engine) (prob : ℚ) (rng : ℕ → ℚ) (tm : Nat)
    (hno : ∀ i n, ¬ rng i < prob + bonus e.vulnerability_data n) (st : SimSt) :
    stepAt e prob rng tm st =
      some { compromised := st.compromised, newly := [], meta := st.meta,
             rngIdx := st.rngIdx + specStepAttempts e st.compromised,
             timeline := st.timeline ++ [⟨tm, [], st.compromised.length⟩] } := by
  unfold stepAt
  rw [sourcesLoop_all_fail e prob rng tm hno st.compromised { st with newly := [] }]
  rfl

theorem simLoop_all_fail (e : Engine) (prob : ℚ) (rng : ℕ → ℚ)
    (hno : ∀ i n, ¬ rng i < prob + bonus e.vulnerability_data n) :
    ∀ (rem tm : Nat) (st : SimSt), ∃ st',
      simLoop e prob rng rem tm st = some st' ∧
      st'.compromised = st.compromised ∧ st'.meta = st.meta
  | 0, tm, st => ⟨st, by simp [simLoop], rfl, rfl⟩
  | rem + 1, tm, st => by
    simp only [simLoop]
    rw [stepAt_all_fail e prob rng tm hno st]
    obtain ⟨st', h1, h2, h3⟩ := simLoop_all_fail e prob rng hno rem (tm + 1)
      { compromised := st.compromised, newly := [], meta := st.meta,
        rngIdx := st.rngIdx + specStepAttempts e st.compromised,
        timeline := st.timeline ++ [⟨tm, [], st.compromised.length⟩] }
    exact ⟨st', h1, h2, h3⟩

/-- C2 amended ("only while it remains uncompromised"): sources of a step are
exactly the nodes compromised before the step began, and when no attempt of
the step succeeds, the step draws exactly once per
`(pre-step source, pre-step uncompromised neighbor)` incoming edge — so a
node with several compromised predecessors does receive several independent
attempts.  (The counterexample shows the attempts stop once one succeeds.) -/
theorem lateral_step_one_attempt_per_edge_while_uncompromised (e : Engine)
    (prob : ℚ) (rng : ℕ → ℚ) (tm : Nat) (st : SimSt)
    (hno : ∀ i n, ¬ rng i < prob + bonus e.vulnerability_data n) :
    stepAt e prob rng tm st =
      some { compromised := st.compromised, newly := [], meta := st.meta,
             rngIdx := st.rngIdx + specStepAttempts e st.compromised,
             timeline := st.timeline ++ [⟨tm, [], st.compromised.length⟩] } :=
  stepAt_all_fail e prob rng tm hno st

/-- C2 amended witness: in the diamond graph, a step starting from the
pre-step compromised set `[A, B, C]` with draws that all fail consumes two
draws — one for edge `B → D` and one for `C → D` — showing `D` gets one
attempt per incoming edge while it stays uncompromised. -/
theorem lateral_step_one_attempt_per_edge_witness :
    specStepAttempts engDiamond ["A", "B", "C"] = 2 ∧
    stepAt engDiamond (1/2) (fun _ => 1) 2
        { compromised := ["A", "B", "C"], newly := [], meta := [],
          rngIdx := 0, timeline := [] } =
      some { compromised := ["A", "B", "C"], newly := [], meta := [],
             rngIdx := 2, timeline := [⟨2, [], 3⟩] } := by
  have h2 : specStepAttempts engDiamond ["A", "B", "C"] = 2 := by
    simp +decide [specStepAttempts, neighbors, engDiamond, add_connection, add_asset,
      addNodeRaw, addEdgeRaw, emptyEngine]
  refine ⟨h2, ?_⟩
  have hno : ∀ (i : ℕ) (n : String),
      ¬ (fun _ => (1 : ℚ)) i < (1/2 : ℚ) + bonus engDiamond.vulnerability_data n := by
    intro i n
    have hb : bonus engDiamond.vulnerability_data n = 0 := by
      simp +decide [bonus, dlookup, engDiamond, add_connection, add_asset,
        addNodeRaw, addEdgeRaw, add_vulnerability, emptyEngine]
    rw [hb]
    norm_num
  rw [lateral_step_one_attempt_per_edge_while_uncompromised engDiamond (1/2)
    (fun _ => 1) 2 _ hno]
  rw [h2]
  rfl

/-- C2 counterexample: in the diamond graph run (probability 1/2, every draw
0, hence every attempt succeeds), step 2 has two incoming edges from pre-step
compromised sources into the uncompromised `D` (`specStepAttempts = 2`, total
4 with step 1), but the whole run consumes only 3 draws: after the first
success on `D` the second source skips it without drawing, contradicting
"one independent attempt per incoming edge even if an earlier attempt in the
same step already marked it compromised". -/
theorem lateral_step_skips_already_marked :
    (runSteps engDiamond "A" (1/2) (fun _ => 0) 0).map SimSt.compromised = some ["A"] ∧
    (runSteps engDiamond "A" (1/2) (fun _ => 0) 1).map SimSt.compromised =
      some ["A", "B", "C"] ∧
    specStepAttempts engDiamond ["A"] + specStepAttempts engDiamond ["A", "B", "C"] = 4 ∧
    (runSteps engDiamond "A" (1/2) (fun _ => 0) 2).map SimSt.rngIdx = some 3 ∧
    (3 : Nat) ≠ 4 := by
  refine ⟨?_, ?_, ?_, ?_, by omega⟩ <;>
    simp +decide [runSteps, initSt, simLoop, stepAt, sourcesLoop, attemptNeighbors,
      metaMark, dlookup, dset, resetMeta, neighbors, bonus, specStepAttempts,
      engDiamond, add_connection, add_asset, addNodeRaw, addEdgeRaw, emptyEngine]

/-! ### C7: zero propagation probability -/

theorem bonus_eq_zero (vd : List (String × List Vuln))
    (hnov : ∀ pr ∈ vd, ∀ v ∈ pr.2, v.network_exploitable = false) (n : String) :
    bonus vd n = 0 := by
  unfold bonus
  cases hn : dlookup vd n with
  | none => rfl
  | some vulns =>
    have hmem := dlookup_mem vd n vulns hn
    have : vulns.filter (·.network_exploitable) = [] := by
      rw [List.filter_eq_nil_iff]
      intro v hv
      simp [hnov (n, vulns) hmem v hv]
    simp [this]

/-- C7 amended: with `propagation_probability = 0`, in an engine none of
whose assets carries a network-exploitable vulnerability (so no CVSS bonus
can lift the effective probability above 0), the simulation from any graph
node that has an asset-metadata record compromises exactly `{x}` — whatever
`time_steps` and whatever the random stream (all draws of `random.random()`
are `≥ 0`). -/
theorem simulate_prob_zero_no_spread (e : Engine) (x : String) (N : Nat)
    (rng : ℕ → ℚ) (hx : x ∈ e.nodes)
    (hmx : (dlookup e.asset_metadata x).isSome)
    (hnov : ∀ pr ∈ e.vulnerability_data, ∀ v ∈ pr.2, v.network_exploitable = false)
    (hrng : ∀ i, 0 ≤ rng i) :
    ∃ r m', simulate_lateral_movement e x N 0 rng = .ok r m' ∧
      r.compromised_assets = [x] ∧ r.total_compromised = 1 := by
  have hno : ∀ i n, ¬ rng i < 0 + bonus e.vulnerability_data n := by
    intro i n
    rw [bonus_eq_zero e.vulnerability_data hnov n]
    simpa using not_lt.mpr (hrng i)
  obtain ⟨r0, hr0⟩ : ∃ r0, dlookup (resetMeta e.asset_metadata) x = some r0 := by
    rw [dlookup_resetMeta]
    cases hl : dlookup e.asset_metadata x with
    | none => rw [hl] at hmx; exact absurd hmx (by simp)
    | some r => exact ⟨_, rfl⟩
  have hinit : initSt e x = some
      ⟨[x], [], dset (resetMeta e.asset_metadata) x
        { r0 with compromised := true, compromise_time := some 0 }, 0,
        [⟨0, [x], 1⟩]⟩ := by
    unfold initSt metaMark
    rw [hr0]
  obtain ⟨st', hrun, hcomp, _⟩ := simLoop_all_fail e 0 rng hno N 1
    ⟨[x], [], dset (resetMeta e.asset_metadata) x
      { r0 with compromised := true, compromise_time := some 0 }, 0, [⟨0, [x], 1⟩]⟩
  have hsteps : runSteps e x 0 rng N = some st' := by
    unfold runSteps
    rw [hinit]
    exact hrun
  have hsim : simulate_lateral_movement e x N 0 rng =
      .ok { initial_compromise := x, simulation_steps := N,
            total_compromised := st'.compromised.length,
            compromised_assets := st'.compromised,
            critical_assets_compromised := st'.compromised.filter
              (fun a => (dlookup st'.meta a).map (·.criticality) = some "critical"),
            high_assets_compromised := st'.compromised.filter
              (fun a => (dlookup st'.meta a).map (·.criticality) = some "high"),
            timeline := st'.timeline,
            propagation_rate :=
              if 0 < N then (st'.compromised.length : ℚ) / N else 0 }
        st'.meta := by
    unfold simulate_lateral_movement
    rw [if_neg (by simp [hx]), hsteps]
  exact ⟨_, _, hsim, by simpa using hcomp, by simp [hcomp]⟩

/-- C7 counterexample: the claim fails as stated ("for every node of every
graph, independent of the random source"): with base probability 0 but a
network-exploitable CVSS-10 vulnerability on `B`, the effective probability
on `B` is 0.3, and the draw 0 (a value `random.random()` can return)
compromises `B`: the compromised set is `{A, B}`, not `{A}`. -/
theorem simulate_prob_zero_spreads_with_vuln :
    simTotal (simulate_lateral_movement engABvuln "A" 1 0 (fun _ => 0)) = some 2 ∧
    simCompromised (simulate_lateral_movement engABvuln "A" 1 0 (fun _ => 0)) =
      some ["A", "B"] ∧
    (2 : Nat) ≠ 1 := by
  refine ⟨?_, ?_, by omega⟩ <;>
    simp +decide [simulate_lateral_movement, runSteps, initSt, simLoop, stepAt,
      sourcesLoop, attemptNeighbors, metaMark, dlookup, dset, resetMeta, neighbors,
      bonus, maxCvss, engABvuln, engAB, add_connection, add_asset, add_vulnerability,
      addNodeRaw, addEdgeRaw, emptyEngine, simTotal, simCompromised]

/-- C7 witness: the amended statement on the plain two-node engine. -/
theorem simulate_prob_zero_no_spread_witness :
    ("A" ∈ engAB.nodes) ∧
    (∃ r m', simulate_lateral_movement engAB "A" 3 0 (fun _ => 0) = .ok r m' ∧
      r.compromised_assets = ["A"] ∧ r.total_compromised = 1) :=
  ⟨by decide,
    simulate_prob_zero_no_spread engAB "A" 3 (fun _ => 0) (by decide) (by decide)
      (by decide) (fun i => le_refl 0)⟩

/-! ### C1: blast-radius risk aggregation -/

theorem riskLoop_fst (m : List (String × AssetMeta)) :
    ∀ (L : List (List String)) (h : Nat), (riskLoop m h L).1 = specBlastRisk m h L
  | [], h => rfl
  | layer :: rest, h => by
    simp only [riskLoop, specBlastRisk]
    rw [riskLoop_fst m rest (h + 1)]

theorem critOf_valid (e : Engine) (hc : CritsValid e) (a : String) :
    critOf e.asset_metadata a ∈ (["critical", "high", "medium", "low"] : List String) := by
  unfold critOf
  cases hl : dlookup e.asset_metadata a with
  | none => simp
  | some r =>
    have := hc (a, r) (dlookup_mem _ _ _ hl)
    simpa using this

theorem categorize_total (m : List (String × AssetMeta)) :
    ∀ (l : List String) (acc : List String × List String × List String × List String),
      (∀ a ∈ l, critOf m a ∈ (["critical", "high", "medium", "low"] : List String)) →
      ∃ res, categorize m l acc = some res
  | [], acc, _ => ⟨acc, rfl⟩
  | a :: l, (cs, hs, ms, ls), hval => by
    have ha := hval a (List.mem_cons_self a l)
    have hrest : ∀ b ∈ l, critOf m b ∈ (["critical", "high", "medium", "low"] : List String) :=
      fun b hb => hval b (List.mem_cons_of_mem a hb)
    simp only [List.mem_cons, List.mem_singleton, List.not_mem_nil, or_false] at ha
    rcases ha with h | h | h | h <;>
      · simp only [categorize, h]
        exact categorize_total m l _ hrest

theorem round2_critWeight (c : String) : round2 (critWeight c) = critWeight c := by
  unfold critWeight
  split_ifs <;> norm_num [round2, round_eq]

/-- C1 amended: the aggregate `riskScore` is the 2-decimal rounding of the
sum of per-hop risk over hops 0..maxHops — the hop-0 source node included,
contributing its criticality weight at decay `1/(0+1) = 1` — while
`totalAffected` still counts hops 1..maxHops only.  Hence
`calculateBlastRadius(x, 0)` returns `riskScore = criticalityWeight(x)` and
`totalAffected = 0`, and the two-node scenario `A(high) → B(critical)` at
`maxHops = 1` yields `riskScore = 7 + 10/2 = 12.0` (see the counterexample
theorem for the concrete values). -/
theorem blast_risk_includes_hop_zero (e : Engine) (x : String) (maxHops : Nat)
    (hx : x ∈ e.nodes) (hc : CritsValid e) :
    ∃ r, calculate_blast_radius e x maxHops = .ok r ∧
      r.risk_score = round2 (specBlastRisk e.asset_metadata 0 (blastLayers e x maxHops)) ∧
      r.total_affected_assets = ((blastLayers e x maxHops).drop 1).flatten.length ∧
      (maxHops = 0 → r.risk_score = critWeight (critOf e.asset_metadata x) ∧
        r.total_affected_assets = 0) := by
  obtain ⟨⟨cs, hs, ms, ls⟩, hcat⟩ := categorize_total e.asset_metadata
    ((blastLayers e x maxHops).drop 1).flatten ([], [], [], [])
    (fun a _ => critOf_valid e hc a)
  have hok : calculate_blast_radius e x maxHops = .ok
      { source_asset := x,
        max_hops_analyzed := maxHops,
        total_affected_assets := ((blastLayers e x maxHops).drop 1).flatten.length,
        affected_by_hop := (((blastLayers e x maxHops).drop 1).enum).map
          (fun p => (p.1 + 1, p.2.length)),
        affected_by_criticality :=
          [("critical", cs.length), ("high", hs.length),
           ("medium", ms.length), ("low", ls.length)],
        risk_score := round2 (riskLoop e.asset_metadata 0 (blastLayers e x maxHops)).1,
        risk_by_hop := (riskLoop e.asset_metadata 0 (blastLayers e x maxHops)).2,
        critical_assets_at_risk := cs,
        high_assets_at_risk := hs } := by
    unfold calculate_blast_radius
    rw [if_neg (by simp [hx])]
    dsimp only
    rw [hcat]
  refine ⟨_, hok, ?_, rfl, ?_⟩
  · simp [riskLoop_fst]
  · intro h0
    subst h0
    constructor
    · have hlay : blastLayers e x 0 = [[x]] := rfl
      simp only [riskLoop_fst, hlay, specBlastRisk, layerWeightSum]
      norm_num [round2_critWeight]
    · rfl

/-- C1 witness: the amended statement at the scenario engine, `maxHops = 1`. -/
theorem blast_risk_includes_hop_zero_witness :
    ("A" ∈ engAB.nodes ∧ CritsValid engAB) ∧
    (∃ r, calculate_blast_radius engAB "A" 1 = .ok r ∧
      r.risk_score =
        round2 (specBlastRisk engAB.asset_metadata 0 (blastLayers engAB "A" 1)) ∧
      r.total_affected_assets = ((blastLayers engAB "A" 1).drop 1).flatten.length ∧
      ((1 : Nat) = 0 → r.risk_score = critWeight (critOf engAB.asset_metadata "A") ∧
        r.total_affected_assets = 0)) :=
  ⟨⟨by decide, by decide⟩, blast_risk_includes_hop_zero engAB "A" 1 (by decide) (by decide)⟩

/-- C1 counterexample: in the scenario engine, `calculateBlastRadius(A, 0)`
returns `riskScore = 7` (the hop-0 source's own criticality weight), not 0,
and `calculateBlastRadius(A, 1)` returns `riskScore = 12.0`
(7 from hop 0 plus `10 × 1/2` from hop 1), not `5.0`; `totalAffected` is 0
at `maxHops = 0` as claimed. -/
theorem blast_risk_hop_zero_counterexample :
    blastRisk (calculate_blast_radius engAB "A" 0) = some 7 ∧
    blastAffected (calculate_blast_radius engAB "A" 0) = some 0 ∧
    (7 : ℚ) ≠ 0 ∧
    blastRisk (calculate_blast_radius engAB "A" 1) = some 12 ∧
    (12 : ℚ) ≠ 5 := by
  refine ⟨?_, ?_, by norm_num, ?_, by norm_num⟩ <;>
    (simp +decide [calculate_blast_radius, blastLayers, layersLoop, expandLevel,
        scanNbrs, riskLoop, layerWeightSum, critOf, critWeight, categorize, dlookup,
        neighbors, engAB, add_connection, add_asset, addNodeRaw, addEdgeRaw,
        emptyEngine, blastRisk, blastAffected, round2] <;>
      norm_num [round_eq])

/-! ### C9: critical-path ranking -/

theorem enqueueChildren_mem (p : List String) :
    ∀ (ns : List String) (qs : List (String × List String)) (vis : List (List String))
      (cp : String × List String), cp ∈ (enqueueChildren p ns qs vis).1 →
      cp ∈ qs ∨ ∃ n, cp = (n, p ++ [n])
  | [], qs, vis, cp, h => Or.inl h
  | n :: ns, qs, vis, cp, h => by
    simp only [enqueueChildren] at h
    by_cases h1 : n ∈ p
    · rw [if_pos h1] at h
      exact enqueueChildren_mem p ns qs vis cp h
    · rw [if_neg h1] at h
      by_cases h2 : (p ++ [n]) ∈ vis
      · rw [if_pos h2] at h
        exact enqueueChildren_mem p ns qs vis cp h
      · rw [if_neg h2] at h
        rcases enqueueChildren_mem p ns _ _ cp h with hq | hn
        · rcases List.mem_append.mp hq with hq' | hq'
          · exact Or.inl hq'
          · simp only [List.mem_singleton] at hq'
            exact Or.inr ⟨n, hq'⟩
        · exact Or.inr hn

theorem bfsGo_ne_nil (e : Engine) (t : String) (d : Nat) :
    ∀ (fuel : Nat) (queue : List (String × List String)) (visited : List (List String)),
      (∀ cp ∈ queue, cp.2 ≠ ([] : List String)) →
      ∀ res ∈ bfsGo e t d fuel queue visited, res ≠ []
  | _, [], _, _, res, hres => by simp [bfsGo] at hres
  | 0, _ :: _, _, _, res, hres => by simp [bfsGo] at hres
  | fuel + 1, (c, p) :: qs, visited, hinv, res, hres => by
    have hqs : ∀ cp ∈ qs, cp.2 ≠ ([] : List String) :=
      fun cp hcp => hinv cp (List.mem_cons_of_mem _ hcp)
    simp only [bfsGo] at hres
    by_cases h1 : d < p.length
    · rw [if_pos h1] at hres
      exact bfsGo_ne_nil e t d fuel qs visited hqs res hres
    · rw [if_neg h1] at hres
      by_cases h2 : c = t
      · rw [if_pos h2] at hres
        rcases List.mem_cons.mp hres with h | h
        · subst h
          exact hinv (c, res) (List.mem_cons_self _ _)
        · exact bfsGo_ne_nil e t d fuel qs visited hqs res h
      · rw [if_neg h2] at hres
        refine bfsGo_ne_nil e t d fuel _ _ ?_ res hres
        intro cp hcp
        rcases enqueueChildren_mem p (neighbors e c) qs visited cp hcp with h | ⟨n, rfl⟩
        · exact hqs cp h
        · simp
  termination_by fuel queue => (fuel, queue.length)

theorem find_attack_paths_bfs_ne_nil (e : Engine) (s t : String) (d : Nat) :
    ∀ path ∈ find_attack_paths_bfs e s t d, path ≠ [] := by
  intro path hp
  unfold find_attack_paths_bfs at hp
  by_cases hg : s ∈ e.nodes ∧ t ∈ e.nodes
  · rw [if_pos hg] at hp
    exact bfsGo_ne_nil e t d _ _ _ (by simp) path hp
  · rw [if_neg hg] at hp
    exact absurd hp (by simp)

theorem vuln_foldl_eq_sum :
    ∀ (vs : List Vuln) (acc : ℚ),
      vs.foldl (fun acc v =>
        if v.network_exploitable then acc + v.cvss_score * (1 / 10) else acc) acc =
      acc + ((vs.filter (·.network_exploitable)).map (fun v => v.cvss_score * (1 / 10))).sum
  | [], acc => by simp
  | v :: vs, acc => by
    by_cases hv : v.network_exploitable
    · simp only [List.foldl_cons, hv, if_true, List.filter_cons, List.map_cons,
        List.sum_cons]
      rw [vuln_foldl_eq_sum vs]
      ring
    · simp only [List.foldl_cons, hv, if_false, List.filter_cons, Bool.false_eq_true]
      exact vuln_foldl_eq_sum vs acc

theorem path_risk_formula (e : Engine) (path : List String) (h : path ≠ []) :
    _calculate_path_risk e path =
      round2 (10 / (path.length : ℚ) + specVulnBonus e path + specCritBonus e path) := by
  unfold _calculate_path_risk
  rw [dif_neg h]
  have hvb : (path.map (fun a =>
      ((dlookup e.vulnerability_data a).getD []).foldl
        (fun acc v => if v.network_exploitable then acc + v.cvss_score * (1 / 10) else acc)
        0)).sum = specVulnBonus e path := by
    unfold specVulnBonus
    refine congrArg List.sum (List.map_congr_left ?_)
    intro a _
    rw [vuln_foldl_eq_sum]
    ring
  have hlast : path.getLastD "" = path.getLast h := by
    rw [List.getLastD_eq_getLast?, List.getLast?_eq_getLast path h]
    rfl
  rw [hvb]
  unfold specCritBonus
  rw [hlast]

/-- C9 amended: `find_critical_paths` returns at most 20 entries, sorted by
non-increasing `risk_score`, and each entry's `risk_score` equals
`(10 / len(path)) + vulnBonus + criticalityBonus` **rounded to 2 decimals**
(the source rounds the path risk; the unrounded formula of the claim differs
on paths whose length does not divide the numerator — see the counterexample
theorem). -/
theorem find_critical_paths_spec (e : Engine) :
    (find_critical_paths e).length ≤ 20 ∧
    List.Pairwise (fun a b => b.risk_score ≤ a.risk_score) (find_critical_paths e) ∧
    (∀ rec ∈ find_critical_paths e, rec.path ≠ [] ∧
      rec.path_length = rec.path.length ∧
      rec.risk_score = round2 (10 / (rec.path.length : ℚ) +
        specVulnBonus e rec.path + specCritBonus e rec.path)) := by
  refine ⟨List.length_take_le _ _, ?_, ?_⟩
  · have hs := @List.sorted_mergeSort CritPathRec
      (fun a b => decide (b.risk_score ≤ a.risk_score))
      (fun a b c h1 h2 => by
        simp only [decide_eq_true_eq] at h1 h2 ⊢
        exact le_trans h2 h1)
      (fun a b => by
        simp only [Bool.or_eq_true, decide_eq_true_eq]
        exact le_total b.risk_score a.risk_score)
      (critPathsRaw e)
    have hp := hs.sublist (List.take_sublist 20 _)
    exact hp.imp (fun h => by simpa using h)
  · intro rec hrec
    have hmem : rec ∈ critPathsRaw e := by
      have := List.take_subset 20 _ hrec
      exact List.mem_mergeSort.mp this
    unfold critPathsRaw at hmem
    rw [List.mem_flatMap] at hmem
    obtain ⟨en, _, hmem⟩ := hmem
    rw [List.mem_flatMap] at hmem
    obtain ⟨tg, _, hmem⟩ := hmem
    rw [List.mem_map] at hmem
    obtain ⟨path, hpath, rfl⟩ := hmem
    have hne : path ≠ [] := find_attack_paths_bfs_ne_nil e en tg 8 path hpath
    exact ⟨hne, rfl, path_risk_formula e path hne⟩

/-- C9 witness: the amended statement at the three-node chain engine, whose
single critical path `[A, B, C]` has risk `round2 (10/3 + 0 + 5) = 8.33`. -/
theorem find_critical_paths_spec_witness :
    (find_critical_paths engChain).length ≤ 20 ∧
    (∀ rec ∈ find_critical_paths engChain, rec.path ≠ [] ∧
      rec.path_length = rec.path.length ∧
      rec.risk_score = round2 (10 / (rec.path.length : ℚ) +
        specVulnBonus engChain rec.path + specCritBonus engChain rec.path)) :=
  ⟨(find_critical_paths_spec engChain).1, (find_critical_paths_spec engChain).2.2⟩

/-- C9 counterexample: the chain engine's single critical path `[A, B, C]`
has `10/len + vulnBonus + criticalityBonus = 10/3 + 0 + 5 = 25/3`, but the
returned `risk_score` is the rounded `8.33 = 833/100 ≠ 25/3`: the code
rounds the path risk to 2 decimals, the claim's formula does not. -/
theorem critical_path_risk_is_rounded :
    (find_critical_paths engChain).map (fun r => r.risk_score) = [833 / 100] ∧
    10 / (3 : ℚ) + specVulnBonus engChain ["A", "B", "C"] +
      specCritBonus engChain ["A", "B", "C"] = 25 / 3 ∧
    (833 / 100 : ℚ) ≠ 25 / 3 := by
  have hb : find_attack_paths_bfs engChain "A" "C" 8 = [["A", "B", "C"]] := by decide
  have hentry : List.filterMap
      (fun p => if p.2.zone = "dmz" ∨ p.2.zone = "external" then some p.1 else none)
      engChain.asset_metadata = ["A"] := by decide
  have htarget : List.filterMap
      (fun p => if p.2.criticality = "critical" then some p.1 else none)
      engChain.asset_metadata = ["C"] := by decide
  have hraw : critPathsRaw engChain =
      [⟨"A", "C", ["A", "B", "C"], 3, _calculate_path_risk engChain ["A", "B", "C"]⟩] := by
    unfold critPathsRaw
    simp only [hentry, htarget, hb, List.flatMap_cons, List.flatMap_nil,
      List.append_nil, List.map_cons, List.map_nil]
    rfl
  have hrisk : _calculate_path_risk engChain ["A", "B", "C"] = 833 / 100 := by
    simp +decide [_calculate_path_risk, dlookup, engChain, add_connection, add_asset,
      addNodeRaw, addEdgeRaw, emptyEngine, round2]
    norm_num [round_eq]
  refine ⟨?_, ?_, by norm_num⟩
  · unfold find_critical_paths
    rw [hraw, List.mergeSort_singleton]
    simp [hrisk]
  · simp +decide [specVulnBonus, specCritBonus, dlookup, dset, engChain,
      add_connection, add_asset, addNodeRaw, addEdgeRaw, emptyEngine] <;>
      norm_num

/-! ### C6: export / import roundtrip -/

theorem addEdgeRaw_fresh :
    ∀ (edges : List Edge) (ed : Edge),
      (∀ x ∈ edges, ¬(x.source = ed.source ∧ x.target = ed.target)) →
      addEdgeRaw edges ed = edges ++ [ed]
  | [], ed, _ => rfl
  | x :: rest, ed, h => by
    rw [addEdgeRaw, if_neg (h x (List.mem_cons_self _ _))]
    rw [addEdgeRaw_fresh rest ed (fun y hy => h y (List.mem_cons_of_mem _ hy))]
    rfl

theorem import_nodes_aux :
    ∀ (nds : List SnapNode) (acc : Engine),
      (∀ nd ∈ nds, nd.id ∉ acc.nodes) → (nds.map SnapNode.id).Nodup →
      (nds.foldl (fun acc nd =>
        add_asset acc nd.id
          ((nd.fields.map (·.typ)).getD "unknown")
          ((nd.fields.map (·.name)).getD nd.id)
          ((nd.fields.map (·.criticality)).getD "medium")
          ((nd.fields.map (·.zone)).getD "internal")
          (some ((nd.fields.map (·.metadata)).getD []))) acc).nodes =
        acc.nodes ++ nds.map SnapNode.id ∧
      (nds.foldl (fun acc nd =>
        add_asset acc nd.id
          ((nd.fields.map (·.typ)).getD "unknown")
          ((nd.fields.map (·.name)).getD nd.id)
          ((nd.fields.map (·.criticality)).getD "medium")
          ((nd.fields.map (·.zone)).getD "internal")
          (some ((nd.fields.map (·.metadata)).getD []))) acc).edges = acc.edges ∧
      (nds.foldl (fun acc nd =>
        add_asset acc nd.id
          ((nd.fields.map (·.typ)).getD "unknown")
          ((nd.fields.map (·.name)).getD nd.id)
          ((nd.fields.map (·.criticality)).getD "medium")
          ((nd.fields.map (·.zone)).getD "internal")
          (some ((nd.fields.map (·.metadata)).getD []))) acc).vulnerability_data =
        acc.vulnerability_data
  | [], acc, _, _ => by simp
  | nd :: nds, acc, hfresh, hnodup => by
    have hid : nd.id ∉ acc.nodes := hfresh nd (List.mem_cons_self _ _)
    have hacc1 : (add_asset acc nd.id
        ((nd.fields.map (·.typ)).getD "unknown")
        ((nd.fields.map (·.name)).getD nd.id)
        ((nd.fields.map (·.criticality)).getD "medium")
        ((nd.fields.map (·.zone)).getD "internal")
        (some ((nd.fields.map (·.metadata)).getD []))).nodes = acc.nodes ++ [nd.id] := by
      simp [add_asset, addNodeRaw, hid]
    simp only [List.map_cons, List.nodup_cons] at hnodup
    have hfresh' : ∀ nd' ∈ nds, nd'.id ∉ acc.nodes ++ [nd.id] := by
      intro nd' hnd'
      simp only [List.mem_append, List.mem_singleton]
      rintro (h | h)
      · exact hfresh nd' (List.mem_cons_of_mem _ hnd') h
      · exact hnodup.1 (h ▸ List.mem_map_of_mem SnapNode.id hnd')
    obtain ⟨ih1, ih2, ih3⟩ := import_nodes_aux nds
      (add_asset acc nd.id
        ((nd.fields.map (·.typ)).getD "unknown")
        ((nd.fields.map (·.name)).getD nd.id)
        ((nd.fields.map (·.criticality)).getD "medium")
        ((nd.fields.map (·.zone)).getD "internal")
        (some ((nd.fields.map (·.metadata)).getD [])))
      (by rw [hacc1]; exact hfresh') hnodup.2
    refine ⟨?_, ?_, ?_⟩
    · rw [List.foldl_cons, ih1, hacc1]
      simp
    · rw [List.foldl_cons, ih2]
      rfl
    · rw [List.foldl_cons, ih3]
      rfl

theorem import_edges_aux :
    ∀ (eds : List SnapEdge) (acc : Engine),
      (∀ ed ∈ eds, ed.source ∈ acc.nodes ∧ ed.target ∈ acc.nodes) →
      ((acc.edges.map (fun x => (x.source, x.target))) ++
        (eds.map (fun ed => (ed.source, ed.target)))).Nodup →
      (eds.foldl (fun acc ed =>
        add_connection acc ed.source ed.target (ed.typ.getD "network")
          (some (ed.protocols.getD ["tcp"])) (ed.weight.getD 1) false) acc).nodes =
        acc.nodes ∧
      (eds.foldl (fun acc ed =>
        add_connection acc ed.source ed.target (ed.typ.getD "network")
          (some (ed.protocols.getD ["tcp"])) (ed.weight.getD 1) false) acc).edges =
        acc.edges ++ eds.map rebuiltEdge ∧
      (eds.foldl (fun acc ed =>
        add_connection acc ed.source ed.target (ed.typ.getD "network")
          (some (ed.protocols.getD ["tcp"])) (ed.weight.getD 1) false) acc).vulnerability_data =
        acc.vulnerability_data
  | [], acc, _, _ => by simp
  | ed :: eds, acc, hend, hkeys => by
    have hsrc := (hend ed (List.mem_cons_self _ _)).1
    have htgt := (hend ed (List.mem_cons_self _ _)).2
    have hinner : addNodeRaw acc.nodes ed.source = acc.nodes := by
      rw [addNodeRaw, if_pos hsrc]
    have hn : addNodeRaw (addNodeRaw acc.nodes ed.source) ed.target = acc.nodes := by
      rw [hinner, addNodeRaw, if_pos htgt]
    have hfresh : ∀ x ∈ acc.edges, ¬(x.source = ed.source ∧ x.target = ed.target) := by
      intro x hx hcontra
      have h1 : (ed.source, ed.target) ∈ acc.edges.map (fun x => (x.source, x.target)) := by
        rw [← hcontra.1, ← hcontra.2]
        exact List.mem_map_of_mem _ hx
      have h2 := (List.nodup_append.mp hkeys).2.2
      exact h2 h1 (by simp)
    have hstep : add_connection acc ed.source ed.target (ed.typ.getD "network")
        (some (ed.protocols.getD ["tcp"])) (ed.weight.getD 1) false =
        { acc with edges := acc.edges ++ [rebuiltEdge ed] } := by
      unfold add_connection
      simp only [Bool.false_eq_true, if_false]
      rw [hn, addEdgeRaw_fresh acc.edges _ hfresh]
      rfl
    simp only [List.foldl_cons, hstep]
    obtain ⟨ih1, ih2, ih3⟩ := import_edges_aux eds
      { acc with edges := acc.edges ++ [rebuiltEdge ed] }
      (fun ed' hed' => hend ed' (List.mem_cons_of_mem _ hed'))
      (by
        simp only [List.map_append, List.map_cons, List.map_nil, rebuiltEdge,
          List.append_assoc, List.singleton_append] at hkeys ⊢
        exact hkeys)
    refine ⟨ih1, ?_, ih3⟩
    rw [ih2]
    simp

/-- C6. Importing a well-formed engine's own export reproduces its node list,
its edge list (with `type`, `protocols`, `weight` attributes), and its
vulnerability map exactly, whatever engine the import is applied to. -/
theorem export_import_identity (g : Engine) (hWF : WFgraph g) (e' : Engine) :
    (import_from_dict e' (export_to_dict g)).nodes = g.nodes ∧
    (import_from_dict e' (export_to_dict g)).edges = g.edges ∧
    (import_from_dict e' (export_to_dict g)).vulnerability_data =
      g.vulnerability_data := by
  obtain ⟨hnodes, hkeys, hends, hprot⟩ := hWF
  have hids : (g.nodes.map
      (fun n => (⟨n, dlookup g.asset_metadata n⟩ : SnapNode))).map SnapNode.id =
      g.nodes := by
    simp [List.map_map, Function.comp_def]
  have hsnapkeys : (g.edges.map (fun ed =>
      (⟨ed.source, ed.target, some ed.typ, some ed.protocols, some ed.weight⟩
        : SnapEdge))).map (fun ed => (ed.source, ed.target)) =
      g.edges.map (fun x => (x.source, x.target)) := by
    simp [List.map_map, Function.comp_def]
  unfold import_from_dict export_to_dict
  simp only
  obtain ⟨hN1, hN2, hN3⟩ := import_nodes_aux
    (g.nodes.map (fun n => (⟨n, dlookup g.asset_metadata n⟩ : SnapNode)))
    ⟨[], [], [], []⟩ (by simp)
    (by rw [hids]; exact hnodes)
  obtain ⟨hE1, hE2, hE3⟩ := import_edges_aux
    (g.edges.map (fun ed =>
      (⟨ed.source, ed.target, some ed.typ, some ed.protocols, some ed.weight⟩ : SnapEdge)))
    ((g.nodes.map (fun n => (⟨n, dlookup g.asset_metadata n⟩ : SnapNode))).foldl
      (fun acc nd =>
        add_asset acc nd.id
          ((nd.fields.map (·.typ)).getD "unknown")
          ((nd.fields.map (·.name)).getD nd.id)
          ((nd.fields.map (·.criticality)).getD "medium")
          ((nd.fields.map (·.zone)).getD "internal")
          (some ((nd.fields.map (·.metadata)).getD []))) ⟨[], [], [], []⟩)
    (by
      intro ed hed
      rw [hN1, hids]
      rw [List.mem_map] at hed
      obtain ⟨ed0, hed0, rfl⟩ := hed
      exact hends ed0 hed0)
    (by
      rw [hN2, hsnapkeys]
      simpa using hkeys)
  refine ⟨?_, ?_, ?_⟩
  · rw [hE1, hN1, hids]
    simp
  · rw [hE2, hN2]
    simp only [List.nil_append, List.map_map]
    have hid : ∀ ed0 ∈ g.edges,
        (rebuiltEdge ∘ fun ed =>
          (⟨ed.source, ed.target, some ed.typ, some ed.protocols, some ed.weight⟩
            : SnapEdge)) ed0 = id ed0 := by
      intro ed0 hed0
      have hp := hprot ed0 hed0
      simp [Function.comp_def, rebuiltEdge, hp]
    rw [List.map_congr_left hid, List.map_id]
  · simp

/-- C6 witness: the roundtrip on the two-node scenario engine. -/
theorem export_import_identity_witness :
    WFgraph engAB ∧
    (import_from_dict emptyEngine (export_to_dict engAB)).nodes = engAB.nodes ∧
    (import_from_dict emptyEngine (export_to_dict engAB)).edges = engAB.edges ∧
    (import_from_dict emptyEngine (export_to_dict engAB)).vulnerability_data =
      engAB.vulnerability_data :=
  ⟨by decide, export_import_identity engAB (by decide) emptyEngine⟩

/-! ### C4: BFS and DFS return the same set of paths -/

theorem completes_length {e : Engine} {t : String} {d : Nat} {c : String}
    {p res : List String} (h : Completes e t d c p res) : p.length ≤ d := by
  cases h with
  | done _ hp => exact hp
  | step _ _ _ _ hlen _ _ _ _ => exact hlen

theorem completes_target_iff (e : Engine) (t : String) (d : Nat)
    (p res : List String) (hlen : p.length ≤ d) :
    Completes e t d t p res ↔ res = p := by
  constructor
  · intro h
    cases h with
    | done _ _ => rfl
    | step _ _ _ _ _ hct _ _ _ => exact absurd rfl hct
  · rintro rfl
    exact Completes.done _ hlen

theorem completes_step_iff (e : Engine) (t : String) (d : Nat) (c : String)
    (p res : List String) (hlen : p.length ≤ d) (hct : c ≠ t) :
    Completes e t d c p res ↔
      ∃ n, n ∈ neighbors e c ∧ n ∉ p ∧ Completes e t d n (p ++ [n]) res := by
  constructor
  · intro h
    cases h with
    | done _ _ => exact absurd rfl hct
    | step _ _ n _ _ _ hn hnp h' => exact ⟨n, hn, hnp, h'⟩
  · rintro ⟨n, hn, hnp, h'⟩
    exact Completes.step c p n res hlen hct hn hnp h'

theorem prefix_snoc {α : Type} (x p : List α) (n : α) (h : x <+: p ++ [n]) :
    x <+: p ∨ x = p ++ [n] := by
  by_cases hl : x.length ≤ p.length
  · exact Or.inl (List.prefix_of_prefix_length_le h (List.prefix_append p [n]) hl)
  · refine Or.inr (h.eq_of_length ?_)
    have h1 := h.length_le
    simp only [List.length_append, List.length_singleton] at h1 ⊢
    omega

theorem nbrsAux_nodup (c : String) :
    ∀ (eds : List Edge), (eds.map (fun ed => (ed.source, ed.target))).Nodup →
      (eds.filterMap (fun ed => if ed.source = c then some ed.target else none)).Nodup
  | [], _ => by simp
  | ed :: eds, h => by
    simp only [List.map_cons, List.nodup_cons] at h
    by_cases hs : ed.source = c
    · rw [show List.filterMap
          (fun ed => if ed.source = c then some ed.target else none) (ed :: eds) =
          ed.target :: List.filterMap
            (fun ed => if ed.source = c then some ed.target else none) eds from by
        simp [List.filterMap_cons, hs]]
      refine List.nodup_cons.mpr ⟨?_, nbrsAux_nodup c eds h.2⟩
      intro hmem
      rw [List.mem_filterMap] at hmem
      obtain ⟨ed', hed', hcond⟩ := hmem
      by_cases hs' : ed'.source = c
      · rw [if_pos hs'] at hcond
        simp only [Option.some.injEq] at hcond
        refine h.1 ?_
        have : (ed.source, ed.target) = (ed'.source, ed'.target) := by
          rw [hs, hs', hcond]
        rw [this]
        exact List.mem_map_of_mem _ hed'
      · rw [if_neg hs'] at hcond
        exact absurd hcond (by simp)
    · rw [show List.filterMap
          (fun ed => if ed.source = c then some ed.target else none) (ed :: eds) =
          List.filterMap
            (fun ed => if ed.source = c then some ed.target else none) eds from by
        simp [List.filterMap_cons, hs]]
      exact nbrsAux_nodup c eds h.2

theorem neighbors_nodup (e : Engine)
    (hkeys : (e.edges.map (fun ed => (ed.source, ed.target))).Nodup) (c : String) :
    (neighbors e c).Nodup :=
  nbrsAux_nodup c e.edges hkeys

theorem enqueueChildren_eq (p : List String) :
    ∀ (ns : List String) (qs : List (String × List String)) (vis : List (List String)),
      ns.Nodup → (∀ n ∈ ns, (p ++ [n]) ∉ vis) →
      enqueueChildren p ns qs vis =
        (qs ++ (ns.filter (fun n => decide (n ∉ p))).map (fun n => (n, p ++ [n])),
         vis ++ (ns.filter (fun n => decide (n ∉ p))).map (fun n => p ++ [n]))
  | [], qs, vis, _, _ => by simp [enqueueChildren]
  | n :: ns, qs, vis, hnd, hnb => by
    simp only [List.nodup_cons] at hnd
    by_cases hp : n ∈ p
    · simp only [enqueueChildren, if_pos hp]
      rw [enqueueChildren_eq p ns qs vis hnd.2
        (fun m hm => hnb m (List.mem_cons_of_mem _ hm))]
      simp [List.filter_cons, hp]
    · have hfresh : ∀ m ∈ ns, (p ++ [m]) ∉ vis ++ [p ++ [n]] := by
        intro m hm
        simp only [List.mem_append, List.mem_singleton]
        rintro (hv | hv)
        · exact hnb m (List.mem_cons_of_mem _ hm) hv
        · have hmn : m = n := by
            have := List.append_cancel_left hv
            simpa using this
          exact hnd.1 (hmn ▸ hm)
      simp only [enqueueChildren, if_neg hp,
        if_neg (hnb n (List.mem_cons_self _ _))]
      rw [enqueueChildren_eq p ns (qs ++ [(n, p ++ [n])]) (vis ++ [p ++ [n]])
        hnd.2 hfresh]
      simp [List.filter_cons, hp, List.append_assoc]

theorem bfs_no_block (s c : String) (p : List String)
    (qs : List (String × List String)) (visited : List (List String))
    (hInv : BfsInv s ((c, p) :: qs) visited) :
    ∀ n, (p ++ [n]) ∉ visited := by
  intro n hmem
  have hA := hInv.1 (c, p) (List.mem_cons_self _ _) (p ++ [n]) hmem
    (List.prefix_append _ _)
  have := congrArg List.length hA
  simp at this

theorem bfsInv_expand (s c : String) (p : List String)
    (qs : List (String × List String)) (visited : List (List String))
    (nbrs : List String) (hnd : nbrs.Nodup)
    (hInv : BfsInv s ((c, p) :: qs) visited) :
    BfsInv s
      (qs ++ (nbrs.filter (fun n => decide (n ∉ p))).map (fun n => (n, p ++ [n])))
      (visited ++ (nbrs.filter (fun n => decide (n ∉ p))).map (fun n => p ++ [n])) := by
  obtain ⟨hA, hB, hC, hE⟩ := hInv
  have hpqs : p ∉ qs.map Prod.snd := by
    simp only [List.map_cons, List.nodup_cons] at hB
    exact hB.1
  have hBqs : (qs.map Prod.snd).Nodup := by
    simp only [List.map_cons, List.nodup_cons] at hB
    exact hB.2
  have hpe : p ≠ [] := hE (c, p) (List.mem_cons_self _ _)
  have hnoblock : ∀ n, (p ++ [n]) ∉ visited :=
    bfs_no_block s c p qs visited ⟨hA, hB, hC, hE⟩
  refine ⟨?_, ?_, ?_, ?_⟩
  · intro cp hcp q hq hpre
    rcases List.mem_append.mp hcp with hcp | hcp
    · rcases List.mem_append.mp hq with hq | hq
      · exact hA cp (List.mem_cons_of_mem _ hcp) q hq hpre
      · rw [List.mem_map] at hq
        obtain ⟨n, hn, rfl⟩ := hq
        rcases prefix_snoc _ _ _ hpre with hpre' | hpre'
        · by_cases heq : cp.2 = p
          · exact absurd (heq ▸ List.mem_map_of_mem Prod.snd hcp) hpqs
          · have hCp := hC (c, p) (List.mem_cons_self _ _)
            simp only at hCp
            rcases hCp with hpv | hps
            · exact absurd (hA cp (List.mem_cons_of_mem _ hcp) p hpv hpre') heq
            · rw [hps] at hpre'
              have h1 := hpre'.length_le
              simp only [List.length_singleton] at h1
              rcases Nat.le_one_iff_eq_zero_or_eq_one.mp h1 with h0 | h0
              · exact absurd (List.length_eq_zero.mp h0)
                  (hE cp (List.mem_cons_of_mem _ hcp))
              · exact absurd (hpre'.eq_of_length (by simpa using h0)) (hps ▸ heq)
        · exact hpre'
    · rw [List.mem_map] at hcp
      obtain ⟨n, hn, rfl⟩ := hcp
      rcases List.mem_append.mp hq with hq | hq
      · have hppre : p <+: q := (List.prefix_append p [n]).trans hpre
        have hpq := hA (c, p) (List.mem_cons_self _ _) q hq hppre
        rw [← hpq] at hpre
        have := hpre.length_le
        simp at this
      · rw [List.mem_map] at hq
        obtain ⟨m, hm, rfl⟩ := hq
        exact hpre.eq_of_length (by simp)
  · rw [List.map_append, List.map_map]
    rw [List.nodup_append]
    refine ⟨hBqs, ?_, ?_⟩
    · have hinj : Function.Injective (Prod.snd ∘ fun n => (n, p ++ [n])) := by
        intro a b hab
        simpa using List.append_cancel_left hab
      exact List.Nodup.map hinj (hnd.filter _)
    · intro q hq1 hq2
      simp only [Function.comp_def, List.mem_map, List.mem_filter] at hq2
      obtain ⟨n, ⟨hn, _⟩, rfl⟩ := hq2
      rw [List.mem_map] at hq1
      obtain ⟨cp, hcp, hcpq⟩ := hq1
      rcases hC cp (List.mem_cons_of_mem _ hcp) with hv | hs1
      · rw [hcpq] at hv
        exact hnoblock n hv
      · rw [hcpq] at hs1
        have := congrArg List.length hs1
        simp only [List.length_append, List.length_singleton] at this
        have hple : 1 ≤ p.length := by
          cases p with
          | nil => exact absurd rfl (hE (c, []) (List.mem_cons_self _ _))
          | cons a l => simp
        omega
  · intro cp hcp
    rcases List.mem_append.mp hcp with hcp | hcp
    · rcases hC cp (List.mem_cons_of_mem _ hcp) with h | h
      · exact Or.inl (List.mem_append_left _ h)
      · exact Or.inr h
    · rw [List.mem_map] at hcp
      obtain ⟨n, hn, rfl⟩ := hcp
      exact Or.inl (List.mem_append_right _ (List.mem_map_of_mem _ hn))
  · intro cp hcp
    rcases List.mem_append.mp hcp with hcp | hcp
    · exact hE cp (List.mem_cons_of_mem _ hcp)
    · rw [List.mem_map] at hcp
      obtain ⟨n, hn, rfl⟩ := hcp
      simp

theorem bfsInv_tail {s c : String} {p : List String}
    {qs : List (String × List String)} {visited : List (List String)}
    (h : BfsInv s ((c, p) :: qs) visited) : BfsInv s qs visited := by
  obtain ⟨hA, hB, hC, hE⟩ := h
  refine ⟨fun cp hcp => hA cp (List.mem_cons_of_mem _ hcp), ?_,
    fun cp hcp => hC cp (List.mem_cons_of_mem _ hcp),
    fun cp hcp => hE cp (List.mem_cons_of_mem _ hcp)⟩
  simp only [List.map_cons, List.nodup_cons] at hB
  exact hB.2

theorem bfsGo_mem (e : Engine) (t : String) (d : Nat) (s : String)
    (hnb : ∀ c, (neighbors e c).Nodup) :
    ∀ (fuel : Nat) (queue : List (String × List String)) (visited : List (List String)),
      measQ d (e.edges.length + 1) queue ≤ fuel → BfsInv s queue visited →
      ∀ res, (res ∈ bfsGo e t d fuel queue visited ↔
        ∃ cp ∈ queue, Completes e t d cp.1 cp.2 res)
  | fuel, [], vis, _, _, res => by
    cases fuel <;> simp [bfsGo]
  | 0, (c, p) :: qs, vis, hfuel, _, res => by
    exfalso
    simp only [measQ, List.map_cons, List.sum_cons] at hfuel
    have h1 : 1 ≤ (e.edges.length + 1) ^ (d + 2 - p.length) :=
      Nat.one_le_pow _ _ (by omega)
    omega
  | fuel + 1, (c, p) :: qs, vis, hfuel, hInv, res => by
    have hmc : measQ d (e.edges.length + 1) ((c, p) :: qs) =
        (e.edges.length + 1) ^ (d + 2 - p.length) +
          measQ d (e.edges.length + 1) qs := by
      simp [measQ]
    have hp1 : 1 ≤ (e.edges.length + 1) ^ (d + 2 - p.length) :=
      Nat.one_le_pow _ _ (by omega)
    by_cases h1 : d < p.length
    · have hrec := bfsGo_mem e t d s hnb fuel qs vis (by omega)
        (bfsInv_tail hInv) res
      simp only [bfsGo, if_pos h1]
      rw [hrec]
      constructor
      · rintro ⟨cp, hcp, hc⟩
        exact ⟨cp, List.mem_cons_of_mem _ hcp, hc⟩
      · rintro ⟨cp, hcp, hc⟩
        rcases List.mem_cons.mp hcp with h | h
        · subst h
          exact absurd (completes_length hc) (not_le.mpr h1)
        · exact ⟨cp, h, hc⟩
    · by_cases h2 : c = t
      · subst h2
        have hrec := bfsGo_mem e c d s hnb fuel qs vis (by omega)
          (bfsInv_tail hInv) res
        simp only [bfsGo, if_neg h1, eq_self_iff_true, if_true]
        rw [List.mem_cons, hrec]
        constructor
        · rintro (h | ⟨cp, hcp, hc⟩)
          · exact ⟨(c, p), List.mem_cons_self _ _,
              (completes_target_iff e c d p res (not_lt.mp h1)).mpr h⟩
          · exact ⟨cp, List.mem_cons_of_mem _ hcp, hc⟩
        · rintro ⟨cp, hcp, hc⟩
          rcases List.mem_cons.mp hcp with h | h
          · subst h
            exact Or.inl ((completes_target_iff e c d p res (not_lt.mp h1)).mp hc)
          · exact Or.inr ⟨cp, h, hc⟩
      · have hlen : p.length ≤ d := not_lt.mp h1
        have hnoblock : ∀ n, (p ++ [n]) ∉ vis := bfs_no_block s c p qs vis hInv
        have hEC := enqueueChildren_eq p (neighbors e c) qs vis (hnb c)
          (fun n _ => hnoblock n)
        have hInv' := bfsInv_expand s c p qs vis (neighbors e c) (hnb c) hInv
        have hchlen : ((neighbors e c).filter (fun n => decide (n ∉ p))).length ≤
            e.edges.length := by
          calc ((neighbors e c).filter (fun n => decide (n ∉ p))).length ≤
              (neighbors e c).length := List.length_filter_le _ _
            _ ≤ e.edges.length := List.length_filterMap_le _ _
        have hmch : measQ d (e.edges.length + 1)
            (((neighbors e c).filter (fun n => decide (n ∉ p))).map
              (fun n => (n, p ++ [n]))) =
            ((neighbors e c).filter (fun n => decide (n ∉ p))).length *
              (e.edges.length + 1) ^ (d + 2 - (p.length + 1)) := by
          unfold measQ
          rw [List.map_map]
          have hfn : ((fun cp : String × List String =>
              (e.edges.length + 1) ^ (d + 2 - cp.2.length)) ∘ (fun n => (n, p ++ [n]))) =
              fun _ => (e.edges.length + 1) ^ (d + 2 - (p.length + 1)) := by
            funext n
            simp
          rw [hfn, List.map_const', List.sum_replicate, smul_eq_mul]
        have hfuel' : measQ d (e.edges.length + 1)
            (qs ++ ((neighbors e c).filter (fun n => decide (n ∉ p))).map
              (fun n => (n, p ++ [n]))) ≤ fuel := by
          have hsplit : measQ d (e.edges.length + 1)
              (qs ++ ((neighbors e c).filter (fun n => decide (n ∉ p))).map
                (fun n => (n, p ++ [n]))) =
              measQ d (e.edges.length + 1) qs +
                measQ d (e.edges.length + 1)
                  (((neighbors e c).filter (fun n => decide (n ∉ p))).map
                    (fun n => (n, p ++ [n]))) := by
            unfold measQ
            rw [List.map_append, List.sum_append]
          rw [hsplit, hmch]
          have hkeq : d + 2 - (p.length + 1) = d + 2 - p.length - 1 := by omega
          have hpow : (e.edges.length + 1) ^ (d + 2 - p.length) =
              (e.edges.length + 1) ^ (d + 2 - p.length - 1) * (e.edges.length + 1) := by
            rw [← pow_succ]
            congr 1
            omega
          have hp1' : 1 ≤ (e.edges.length + 1) ^ (d + 2 - p.length - 1) :=
            Nat.one_le_pow _ _ (by omega)
          have hmul : (((neighbors e c).filter (fun n => decide (n ∉ p))).length + 1) *
              (e.edges.length + 1) ^ (d + 2 - p.length - 1) ≤
              (e.edges.length + 1) ^ (d + 2 - p.length) := by
            rw [hpow, mul_comm ((e.edges.length + 1) ^ (d + 2 - p.length - 1))]
            exact Nat.mul_le_mul_right _ (by omega)
          rw [hkeq]
          have hexp : (((neighbors e c).filter (fun n => decide (n ∉ p))).length + 1) *
              (e.edges.length + 1) ^ (d + 2 - p.length - 1) =
              ((neighbors e c).filter (fun n => decide (n ∉ p))).length *
                (e.edges.length + 1) ^ (d + 2 - p.length - 1) +
                (e.edges.length + 1) ^ (d + 2 - p.length - 1) := by
            ring
          omega
        have hrec := bfsGo_mem e t d s hnb fuel _ _ hfuel' hInv' res
        simp only [bfsGo, if_neg h1, if_neg h2, hEC]
        rw [hrec]
        constructor
        · rintro ⟨cp, hcp, hc⟩
          rcases List.mem_append.mp hcp with h | h
          · exact ⟨cp, List.mem_cons_of_mem _ h, hc⟩
          · rw [List.mem_map] at h
            obtain ⟨n, hn, rfl⟩ := h
            rw [List.mem_filter] at hn
            refine ⟨(c, p), List.mem_cons_self _ _, ?_⟩
            exact Completes.step c p n res hlen h2 hn.1 (by simpa using hn.2) hc
        · rintro ⟨cp, hcp, hc⟩
          rcases List.mem_cons.mp hcp with h | h
          · subst h
            dsimp only at hc
            rw [completes_step_iff e t d c p res hlen h2] at hc
            obtain ⟨n, hn, hnp, hrec'⟩ := hc
            refine ⟨(n, p ++ [n]), List.mem_append_right _ ?_, hrec'⟩
            exact List.mem_map_of_mem _ (List.mem_filter.mpr ⟨hn, by simpa using hnp⟩)
          · exact ⟨cp, List.mem_append_left _ h, hc⟩

theorem dfsGo_mem (e : Engine) (t : String) (d : Nat) :
    ∀ (fuel : Nat) (path : List String) (c : String),
      d + 2 ≤ fuel + path.length →
      ∀ res, (res ∈ dfsGo e t d fuel path c ↔ Completes e t d c path res)
  | 0, path, c, hfuel, res => by
    simp only [dfsGo, List.not_mem_nil, false_iff]
    intro hc
    have := completes_length hc
    omega
  | fuel + 1, path, c, hfuel, res => by
    by_cases h1 : d < path.length
    · simp only [dfsGo, if_pos h1, List.not_mem_nil, false_iff]
      intro hc
      have := completes_length hc
      omega
    · by_cases h2 : c = t
      · subst h2
        simp only [dfsGo, if_neg h1, eq_self_iff_true, if_true, List.mem_singleton]
        exact (completes_target_iff e c d path res (not_lt.mp h1)).symm
      · simp only [dfsGo, if_neg h1, if_neg h2]
        rw [List.mem_flatten]
        constructor
        · rintro ⟨l, hl, hres⟩
          rw [List.mem_map] at hl
          obtain ⟨n, hn, rfl⟩ := hl
          by_cases hnp : n ∈ path
          · rw [if_pos hnp] at hres
            exact absurd hres (by simp)
          · rw [if_neg hnp] at hres
            rw [dfsGo_mem e t d fuel (path ++ [n]) n
              (by simp only [List.length_append, List.length_singleton]; omega) res] at hres
            exact (completes_step_iff e t d c path res (not_lt.mp h1) h2).mpr
              ⟨n, hn, hnp, hres⟩
        · intro hc
          obtain ⟨n, hn, hnp, hrec⟩ :=
            (completes_step_iff e t d c path res (not_lt.mp h1) h2).mp hc
          refine ⟨dfsGo e t d fuel (path ++ [n]) n, ?_, ?_⟩
          · rw [List.mem_map]
            exact ⟨n, hn, by rw [if_neg hnp]⟩
          · rw [dfsGo_mem e t d fuel (path ++ [n]) n
              (by simp only [List.length_append, List.length_singleton]; omega) res]
            exact hrec

/-- C4. For every well-formed graph, both attack-path finders return exactly
the same paths: a node sequence is produced by the BFS variant iff it is
produced by the DFS variant (so the two result lists are equal as sets; only
their order may differ). -/
theorem bfs_dfs_same_paths (e : Engine) (hWF : WFgraph e) (s t : String)
    (d : Nat) (res : List String) :
    res ∈ find_attack_paths_bfs e s t d ↔ res ∈ find_attack_paths_dfs e s t d := by
  unfold find_attack_paths_bfs find_attack_paths_dfs
  by_cases hg : s ∈ e.nodes ∧ t ∈ e.nodes
  · rw [if_pos hg, if_pos hg]
    have hnb : ∀ c, (neighbors e c).Nodup := neighbors_nodup e hWF.2.1
    have hm : measQ d (e.edges.length + 1) [(s, [s])] ≤
        (e.edges.length + 1) ^ (d + 1) := by
      have : d + 2 - 1 = d + 1 := by omega
      simp [measQ, this]
    have hi : BfsInv s [(s, [s])] [] := by
      refine ⟨by simp, by simp, ?_, by simp⟩
      intro cp hcp
      rw [List.mem_singleton] at hcp
      subst hcp
      exact Or.inr rfl
    rw [bfsGo_mem e t d s hnb ((e.edges.length + 1) ^ (d + 1)) [(s, [s])] [] hm hi res,
      dfsGo_mem e t d (d + 1) [s] s (by simp) res]
    constructor
    · rintro ⟨cp, hcp, hc⟩
      rw [List.mem_singleton] at hcp
      subst hcp
      exact hc
    · intro hc
      exact ⟨(s, [s]), List.mem_singleton.mpr rfl, hc⟩
  · rw [if_neg hg, if_neg hg]

/-- C4 witness: both finders on the two-node scenario graph contain exactly
the path `[A, B]`. -/
theorem bfs_dfs_same_paths_witness :
    WFgraph engAB ∧
    (["A", "B"] ∈ find_attack_paths_bfs engAB "A" "B" 5 ↔
      ["A", "B"] ∈ find_attack_paths_dfs engAB "A" "B" 5) :=
  ⟨by decide, bfs_dfs_same_paths engAB (by decide) "A" "B" 5 ["A", "B"]⟩

end Contexta
